import Mathlib

/-!
Verification of the LLM Data Vault core (ixoworld/ecs-oracle).

This file gives a shallow embedding of the data-vault source:
  - `extraction-utils.ts` (PathOps: getByPath / setByPath / deleteByPath /
    extractDataByPaths),
  - `data-vault.service.ts` (DataVaultService: shouldOffload, store metadata
    extraction, retrieve, retrieveWithMetadata, getVaultEntry-style checks),
  - `query.service.ts` (DataVaultQueryService: executeQuery, ensureLimit),
  - `mcp-tool-wrapper.ts` (the offload pipeline's store loop),
and proves or refutes the frozen specification claims about them.

JSON-like JavaScript values are modelled by the mutual inductive `JSVal`.
Mutable objects and arrays carry a `tag : Nat` that stands for the node's
JavaScript object identity: two values that contain a common tag denote
trees that share a mutable node in the JavaScript heap, so an in-place
mutation through one is visible through the other.  Purely structural
operations ignore tags; `JSON.parse(JSON.stringify(_))` is modelled by
retagging every node with a fresh tag.

JavaScript numbers are modelled by `Int` (no claim depends on float
behaviour); exotic property accesses that JSON-shaped data cannot trigger
(string indexing, `length` on arrays, prototype properties) are modelled
as `undefined`.
-/

mutual

inductive JSVal where
  | null : JSVal
  | boolean (b : Bool) : JSVal
  | num (n : Int) : JSVal
  | str (s : String) : JSVal
  | arr (tag : Nat) (elems : JSList) : JSVal
  | obj (tag : Nat) (fields : JSFields) : JSVal
  deriving DecidableEq, Repr

inductive JSList where
  | nil : JSList
  | cons (head : JSVal) (tail : JSList) : JSList
  deriving DecidableEq, Repr

inductive JSFields where
  | nil : JSFields
  | cons (key : String) (val : JSVal) (tail : JSFields) : JSFields
  deriving DecidableEq, Repr

end

/-- Length of a modelled JavaScript array. -/
def jsListLength : JSList → Nat
  | .nil => 0
  | .cons _ rest => jsListLength rest + 1

/-- The elements of a modelled JavaScript array, as a Lean list. -/
def jsListToList : JSList → List JSVal
  | .nil => []
  | .cons v rest => v :: jsListToList rest

/-- Build a modelled JavaScript array from a Lean list. -/
def jsListOfList : List JSVal → JSList
  | [] => .nil
  | v :: rest => .cons v (jsListOfList rest)

/-- The fields of a modelled JavaScript object, as a Lean association list. -/
def jsFieldsToList : JSFields → List (String × JSVal)
  | .nil => []
  | .cons k v rest => (k, v) :: jsFieldsToList rest

/-- Build modelled JavaScript object fields from a Lean association list. -/
def jsFieldsOfList : List (String × JSVal) → JSFields
  | [] => .nil
  | (k, v) :: rest => .cons k v (jsFieldsOfList rest)

/-- `Object.keys` order: the keys of an object's fields, in insertion order. -/
def jsFieldsKeys : JSFields → List String
  | .nil => []
  | .cons k _ rest => k :: jsFieldsKeys rest

/-- First-match lookup of a key among an object's fields (JS property read). -/
def jsFieldsGet (key : String) : JSFields → Option JSVal
  | .nil => none
  | .cons k v rest => if k = key then some v else jsFieldsGet key rest

/-- Index lookup in a modelled JavaScript array. -/
def jsListGet (i : Nat) : JSList → Option JSVal
  | .nil => none
  | .cons v rest => match i with
    | 0 => some v
    | n + 1 => jsListGet n rest

/-- Index update in a modelled JavaScript array (out of range: unchanged). -/
def jsListSet (i : Nat) (newVal : JSVal) : JSList → JSList
  | .nil => .nil
  | .cons v rest => match i with
    | 0 => .cons newVal rest
    | n + 1 => .cons v (jsListSet n newVal rest)

/-- Rebuild a string from its characters. -/
def charsToString (cs : List Char) : String :=
  String.mk cs

/-- Split a character list on a separator character (the semantics of
JavaScript `split` with a one-character separator: `"" → [""]`,
`"." → ["", ""]`, `"a..b" → ["a", "", "b"]`). -/
def splitOnChar (sep : Char) : List Char → List (List Char)
  | [] => [[]]
  | c :: cs =>
    match splitOnChar sep cs with
    | curr :: rest => if c = sep then [] :: curr :: rest else (c :: curr) :: rest
    | [] => [[c]]

/-- Accumulating decimal parse of a digit list. -/
def parseNatGo (acc : Nat) : List Char → Option Nat
  | [] => some acc
  | c :: cs => if c.isDigit then parseNatGo (acc * 10 + (c.toNat - 48)) cs else none

/-- Parse a non-empty all-digit string as a natural number
(`String.toNat?` semantics). -/
def parseNatStr (s : String) : Option Nat :=
  match s.toList with
  | [] => none
  | c :: cs => parseNatGo 0 (c :: cs)

/-- A string is a canonical JavaScript array index (`arr["2"]` addresses
element 2, while `arr["02"]` does not) when it parses as a natural number
whose decimal rendering is the string itself. -/
def canonicalIndex (key : String) : Option Nat :=
  match parseNatStr key with
  | some n => if toString n = key then some n else none
  | none => none

/-- JavaScript property read `current[key]` for JSON-shaped values.
Primitives (and reads of non-index keys on arrays) yield `undefined`,
modelled as `none`. -/
def jsGetKey (cur : JSVal) (key : String) : Option JSVal :=
  match cur with
  | .obj _ fs => jsFieldsGet key fs
  | .arr _ es =>
    match canonicalIndex key with
    | some i => jsListGet i es
    | none => none
  | _ => none

/-- The JavaScript `key in current` test, for JSON-shaped values. -/
def jsKeyIn (cur : JSVal) (key : String) : Bool :=
  (jsGetKey cur key).isSome

/-- Field write on an object: an existing key is updated in place
(property order preserved), a new key is appended at the end. -/
def setFieldKV (key : String) (newVal : JSVal) : JSFields → JSFields
  | .nil => .cons key newVal .nil
  | .cons k v rest =>
    if k = key then .cons k newVal rest else .cons k v (setFieldKV key newVal rest)

/-- Field removal on an object (first match). -/
def delFieldK (key : String) : JSFields → JSFields
  | .nil => .nil
  | .cons k v rest => if k = key then rest else .cons k v (delFieldK key rest)

/-- JavaScript property write `current[key] = v`.  On objects an existing
key is updated in place (property order preserved) and a new key is
appended at the end; on arrays only in-range canonical indices are
written (the claims never exercise array extension). -/
def jsSetKey (cur : JSVal) (key : String) (newVal : JSVal) : JSVal :=
  match cur with
  | .obj t fs => .obj t (setFieldKV key newVal fs)
  | .arr t es =>
    match canonicalIndex key with
    | some i => .arr t (jsListSet i newVal es)
    | none => .arr t es
  | other => other

/-- JavaScript `delete current[key]`.  Removes an object field; deleting an
array index leaves a hole that serializes as `null`, modelled by writing
`null` in place. -/
def jsDelKey (cur : JSVal) (key : String) : JSVal :=
  match cur with
  | .obj t fs => .obj t (delFieldK key fs)
  | .arr t es =>
    match canonicalIndex key with
    | some i => .arr t (jsListSet i .null es)
    | none => .arr t es
  | other => other

mutual

/-- All object-identity tags occurring in a value.  Two values are
mutation-entangled in the JavaScript heap exactly when their tag sets
intersect. -/
def tagsOf : JSVal → List Nat
  | .null => []
  | .boolean _ => []
  | .num _ => []
  | .str _ => []
  | .arr t es => t :: tagsOfList es
  | .obj t fs => t :: tagsOfFields fs

def tagsOfList : JSList → List Nat
  | .nil => []
  | .cons v rest => tagsOf v ++ tagsOfList rest

def tagsOfFields : JSFields → List Nat
  | .nil => []
  | .cons _ v rest => tagsOf v ++ tagsOfFields rest

end

/-- Two values share a mutable node in the JavaScript heap: an in-place
mutation reached through one is visible through the other. -/
def sharesMutableNode (a b : JSVal) : Bool :=
  (tagsOf a).any (fun t => t ∈ tagsOf b)

mutual

/-- `JSON.parse(JSON.stringify(x))` on a JSON-shaped value: structurally
the identity, but every object and array node gets a fresh identity.
Fresh tags are drawn from the counter `c` upward. -/
def retagVal (c : Nat) : JSVal → JSVal × Nat
  | .null => (.null, c)
  | .boolean b => (.boolean b, c)
  | .num n => (.num n, c)
  | .str s => (.str s, c)
  | .arr _ es =>
    let p := retagList (c + 1) es
    (.arr c p.1, p.2)
  | .obj _ fs =>
    let p := retagFields (c + 1) fs
    (.obj c p.1, p.2)

def retagList (c : Nat) : JSList → JSList × Nat
  | .nil => (.nil, c)
  | .cons v rest =>
    let p := retagVal c v
    let q := retagList p.2 rest
    (.cons p.1 q.1, q.2)

def retagFields (c : Nat) : JSFields → JSFields × Nat
  | .nil => (.nil, c)
  | .cons k v rest =>
    let p := retagVal c v
    let q := retagFields p.2 rest
    (.cons k p.1 q.1, q.2)

end

mutual

/-- JavaScript `String(v)` coercion: `null` prints as "null", arrays join
their elements with commas (`null` elements print as the empty string),
plain objects print as "[object Object]". -/
def jsToString : JSVal → String
  | .null => "null"
  | .boolean b => if b then "true" else "false"
  | .num n => toString n
  | .str s => s
  | .arr _ es => jsToStringJoin es
  | .obj _ _ => "[object Object]"

def jsToStringJoin : JSList → String
  | .nil => ""
  | .cons JSVal.null .nil => ""
  | .cons v .nil => jsToString v
  | .cons JSVal.null rest => "," ++ jsToStringJoin rest
  | .cons v rest => jsToString v ++ "," ++ jsToStringJoin rest

end

/-- JSON string escaping for quote and backslash (the only escapes the
claims' data can require). -/
def escapeJsonChar (ch : Char) : String :=
  if ch = '"' then "\\\"" else if ch = '\\' then "\\\\" else String.singleton ch

/-- Render a string as a JSON string literal. -/
def jsonQuote (s : String) : String :=
  "\"" ++ String.join (s.toList.map escapeJsonChar) ++ "\""

mutual

/-- `JSON.stringify` on JSON-shaped values. -/
def jsonStringify : JSVal → String
  | .null => "null"
  | .boolean b => if b then "true" else "false"
  | .num n => toString n
  | .str s => jsonQuote s
  | .arr _ es => "[" ++ jsonStringifyItems es ++ "]"
  | .obj _ fs => "\x7b" ++ jsonStringifyFields fs ++ "\x7d"

def jsonStringifyItems : JSList → String
  | .nil => ""
  | .cons v .nil => jsonStringify v
  | .cons v rest => jsonStringify v ++ "," ++ jsonStringifyItems rest

def jsonStringifyFields : JSFields → String
  | .nil => ""
  | .cons k v .nil => jsonQuote k ++ ":" ++ jsonStringify v
  | .cons k v rest => jsonQuote k ++ ":" ++ jsonStringify v ++ "," ++ jsonStringifyFields rest

end

/-! ## PathOps (`extraction-utils.ts`) -/

/-- A dot path addresses the root when it is `""` or `"."`
(`getByPath`, `setByPath` and `deleteByPath` all test exactly this). -/
def isRootPath (path : String) : Bool :=
  path = "" || path = "."

/-- `path.split('.')`. -/
def splitPath (path : String) : List String :=
  (splitOnChar '.' path.toList).map charsToString

/-- Inner loop of `getByPath`: walk the keys, returning `undefined` as soon
as a property read misses. -/
def jsGetKeysChain (cur : JSVal) : List String → Option JSVal
  | [] => some cur
  | k :: rest =>
    match jsGetKey cur k with
    | some next => jsGetKeysChain next rest
    | none => none

/-- `getByPath(obj, path)`: the value addressed by a dot path, or
`undefined` when any intermediate is missing. -/
def getByPath (objVal : JSVal) (path : String) : Option JSVal :=
  if isRootPath path then some objVal else jsGetKeysChain objVal (splitPath path)

/-- A read value counts as an object for `setByPath`'s
`typeof current[key] !== 'object'` test.  (JavaScript's `typeof null`
is also `'object'`, but descending into `null` would then throw on the
`in` test; that branch is unreachable from `extractDataByPaths`, whose
written values were read through the same chain.) -/
def isObjectLike : JSVal → Bool
  | .obj _ _ => true
  | .arr _ _ => true
  | _ => false

/-- Inner loop of `setByPath`: descend creating fresh `{}` intermediates
(fresh tags from `c`) whenever the key is absent or not an object, then
assign the last key. -/
def setKeysChain (c : Nat) (cur : JSVal) : List String → JSVal → JSVal × Nat
  | [], _ => (cur, c)
  | [last], v => (jsSetKey cur last v, c)
  | k :: k' :: rest, v =>
    let child :=
      match jsGetKey cur k with
      | some ch => if isObjectLike ch then (ch, c) else (JSVal.obj c .nil, c + 1)
      | none => (JSVal.obj c .nil, c + 1)
    let p := setKeysChain child.2 child.1 (k' :: rest) v
    (jsSetKey cur k p.1, p.2)

/-- `setByPath(obj, path, value)`: create intermediate objects as needed and
set the value; refuses (throws) on the root path, modelled as `none`. -/
def setByPath (c : Nat) (objVal : JSVal) (path : String) (v : JSVal) : Option (JSVal × Nat) :=
  if isRootPath path then none else some (setKeysChain c objVal (splitPath path) v)

/-- Inner loop of `deleteByPath`: descend while each key is present
(returning unchanged on a miss), then delete the last key. -/
def delKeysChain (cur : JSVal) : List String → JSVal
  | [] => cur
  | [last] => jsDelKey cur last
  | k :: k' :: rest =>
    match jsGetKey cur k with
    | some child => jsSetKey cur k (delKeysChain child (k' :: rest))
    | none => cur

/-- `deleteByPath(obj, path)`: no-op on missing paths; refuses (throws) on
the root path, modelled as `none`. -/
def deleteByPath (objVal : JSVal) (path : String) : Option JSVal :=
  if isRootPath path then none else some (delKeysChain objVal (splitPath path))

/-- JS `Map.set` semantics for the extracted-data map: an existing key is
updated in place (iteration order kept), a new key is appended. -/
def mapSet (key : String) (v : JSVal) : List (String × JSVal) → List (String × JSVal)
  | [] => [(key, v)]
  | (k, w) :: rest =>
    if k = key then (key, v) :: rest else (k, w) :: mapSet key v rest

/-- Loop of `buildPreservedObject`: for each path defined in the source,
graft the (shared, not cloned) source value into the fresh result object.
A root preserve path reaches `setByPath`'s root refusal, modelled as
`none`. -/
def buildPreservedGo (src : JSVal) (c : Nat) (acc : JSVal) : List String → Option (JSVal × Nat)
  | [] => some (acc, c)
  | p :: rest =>
    match getByPath src p with
    | none => buildPreservedGo src c acc rest
    | some v =>
      match setByPath c acc p v with
      | none => none
      | some q => buildPreservedGo src q.2 q.1 rest

/-- `buildPreservedObject(source, paths)`: a fresh object (fresh tag `c`)
containing only the given paths, each grafted from the source. -/
def buildPreservedObject (c : Nat) (src : JSVal) (paths : List String) : Option (JSVal × Nat) :=
  buildPreservedGo src (c + 1) (.obj c .nil) paths

/-- Loop of `extractDataByPaths` over the extraction paths.  `modified` is
the working residual (initially the deep clone); a defined root path
returns immediately with a residual rebuilt from the preserve paths. -/
def extractGo (resp : JSVal) (pres : List String) (c : Nat)
    (acc : List (String × JSVal)) (modified : JSVal) :
    List String → Option (List (String × JSVal) × JSVal × Nat)
  | [] =>
    if pres.isEmpty then some (acc, modified, c)
    else
      match buildPreservedObject c resp pres with
      | none => none
      | some q => some (acc, q.1, q.2)
  | p :: rest =>
    match getByPath resp p with
    | none => extractGo resp pres c acc modified rest
    | some v =>
      let acc' := mapSet p v acc
      if isRootPath p then
        match buildPreservedObject c resp pres with
        | none => none
        | some q => some (acc', q.1, q.2)
      else
        match deleteByPath modified p with
        | none => extractGo resp pres c acc' modified rest
        | some m' => extractGo resp pres c acc' m' rest

/-- `extractDataByPaths(response, extractionPaths, preservePaths)`:
returns the extracted map and the residual response.  With no extraction
paths the original response itself is returned; otherwise the residual
starts as a deep clone (fresh tags from `c`) with each extracted path
deleted, except that a defined root extraction path or a non-empty
preserve list replaces the residual by `buildPreservedObject`.
`none` models the only reachable throw (a root preserve path). -/
def extractDataByPaths (c : Nat) (resp : JSVal) (exPaths pres : List String) :
    Option (List (String × JSVal) × JSVal × Nat) :=
  if exPaths.isEmpty then some ([], resp, c)
  else
    let cl := retagVal c resp
    extractGo resp pres cl.2 [] cl.1 exPaths

/-! ## DataVaultService (`data-vault.service.ts`) -/

/-- Configuration for data vault thresholds. -/
structure DataVaultConfig where
  maxInlineRows : Nat
  maxInlineTokens : Nat
  maxInlineBytes : Nat
  ttlSeconds : Nat
  gracePeriodSeconds : Nat
  deriving DecidableEq, Repr

/-- The constructor defaults: 100 rows, 10000 tokens, 50KB, 30min TTL,
5min grace period. -/
def defaultDataVaultConfig : DataVaultConfig :=
  { maxInlineRows := 100
    maxInlineTokens := 10000
    maxInlineBytes := 50 * 1024
    ttlSeconds := 30 * 60
    gracePeriodSeconds := 5 * 60 }

/-- `shouldOffload(data)`: false for non-arrays; otherwise the sequential
checks row count, byte size, estimated tokens (serialized length divided
by 4, an exact float division modelled in `ℚ`). -/
def shouldOffload (cfg : DataVaultConfig) (data : JSVal) : Bool :=
  match data with
  | .arr _ es =>
    if cfg.maxInlineRows < jsListLength es then true
    else
      let jsonStr := jsonStringify data
      if cfg.maxInlineBytes < jsonStr.length then true
      else if (cfg.maxInlineTokens : ℚ) < (jsonStr.length : ℚ) / 4 then true
      else false
  | _ => false

/-- The column types of `inferType`. -/
inductive JType where
  | string | number | boolean | date | object | array | null
  deriving DecidableEq, Repr

/-- Consume exactly `n` decimal digits. -/
def takeDigits : Nat → List Char → Option (List Char)
  | 0, cs => some cs
  | _ + 1, [] => none
  | n + 1, c :: cs => if c.isDigit then takeDigits n cs else none

/-- Consume one expected character. -/
def takeChar (ch : Char) : List Char → Option (List Char)
  | [] => none
  | c :: cs => if c = ch then some cs else none

/-- The time part of the date pattern:
`\d{2}:\d{2}:\d{2}(\.\d{3})?Z?` anchored at the end. -/
def isoTimePart (cs : List Char) : Bool :=
  match (((takeDigits 2 cs).bind (takeChar ':')).bind (takeDigits 2) |>.bind
      (takeChar ':') |>.bind (takeDigits 2)) with
  | none => false
  | some rest =>
    match (match rest with | '.' :: r => takeDigits 3 r | r => some r) with
    | none => false
    | some rest2 =>
      match rest2 with
      | [] => true
      | ['Z'] => true
      | _ => false

/-- The date-string test of `inferType`:
`/^\d{4}-\d{2}-\d{2}(T\d{2}:\d{2}:\d{2}(\.\d{3})?Z?)?$/`. -/
def isIsoDateString (s : String) : Bool :=
  match (((takeDigits 4 s.toList).bind (takeChar '-')).bind (takeDigits 2) |>.bind
      (takeChar '-') |>.bind (takeDigits 2)) with
  | none => false
  | some [] => true
  | some ('T' :: rest) => isoTimePart rest
  | some _ => false

/-- `inferType(value)`.  `none` models `undefined`.  (The `value instanceof
Date` arm is unreachable: vault rows come from `JSON.parse`d tool
responses, which never contain `Date` objects.) -/
def inferType : Option JSVal → JType
  | none => .null
  | some .null => .null
  | some (.arr _ _) => .array
  | some (.obj _ _) => .object
  | some (.num _) => .number
  | some (.boolean _) => .boolean
  | some (.str s) => if isIsoDateString s then .date else .string

/-- One entry of the metadata `schema`. -/
structure ColumnSchema where
  column : String
  type : JType
  nullable : Bool
  deriving DecidableEq, Repr

/-- Per-column statistics for LLM context. -/
structure ColumnStats where
  column : String
  unique : Nat
  topValues : Option (List String)
  min : Option Int
  max : Option Int
  sum : Option Int
  avg : Option ℚ
  nullCount : Nat
  deriving DecidableEq, Repr

/-- Data source information for reproducibility. -/
structure DataSource where
  toolName : String
  toolArgs : Option JSVal
  userQuery : Option String
  timestamp : Nat
  deriving DecidableEq, Repr

/-- Classification of data structure by the analysis sub-agent. -/
inductive DataTypeClass where
  | timeseries | tabular | hierarchical | geospatial | text | mixed
  deriving DecidableEq, Repr

/-- Semantic analysis from the data-analysis sub-agent. -/
structure SemanticAnalysis where
  description : String
  dataType : DataTypeClass
  suggestedVisualizations : List String
  visualizationRationale : String
  qualityInsights : List String
  enhancements : List (String × JSVal)
  deriving DecidableEq, Repr

/-- The metadata envelope returned to the LLM in place of full data
(`_dataOffloaded` and `_note` are modelled without the underscore). -/
structure DataVaultMetadata where
  handleId : String
  fetchToken : String
  sourceTool : String
  schema : List ColumnSchema
  rowCount : Nat
  sampleRows : List JSVal
  columnStats : List ColumnStats
  dataSource : Option DataSource
  semantics : Option SemanticAnalysis
  dataOffloaded : Bool
  note : String
  deriving DecidableEq, Repr

/-- The `_note` of the zero-row envelope. -/
def emptyDataNote (handleId accessToken : String) : String :=
  "Data was offloaded due to size. Use query_vaulted_data if needed:\n- dataHandle: \"" ++
    handleId ++ "\"\n- fetchToken: \"" ++ accessToken ++
    "\"\n\nFor AG-UI visualization tools, include BOTH dataHandle and fetchToken."

/-- The `_note` of the ordinary (non-empty data) envelope. -/
def offloadedDataNote (handleId accessToken : String) (sampleCount rowCount : Nat) : String :=
  "⚠️ WARNING: sampleRows shows ONLY " ++ toString sampleCount ++ " of " ++
    toString rowCount ++ " rows.\nDO NOT answer questions based on sampleRows - they may be unrepresentative.\n\nFor ACCURATE answers to data questions, you MUST use query_vaulted_data with:\n- dataHandle: \"" ++
    handleId ++ "\"\n- fetchToken: \"" ++ accessToken ++
    "\"\n- sql: \"SELECT ... FROM \x7btable\x7d WHERE ...\"\n\nExample: SELECT COUNT(*) FROM \x7btable\x7d WHERE status = 'active'\n\nThe sample is for SCHEMA UNDERSTANDING only, NOT for answering questions.\n\nFor AG-UI visualization tools, include BOTH dataHandle and fetchToken:\n\x7b\n  \"dataHandle\": \"" ++
    handleId ++ "\",\n  \"fetchToken\": \"" ++ accessToken ++
    "\",\n  \"columns\": [...],\n  \"title\": \"...\"\n\x7d"

/-- The column value of a row: `row[col]` (`none` models `undefined`). -/
def rowGet (row : JSVal) (col : String) : Option JSVal :=
  jsGetKey row col

/-- A read that is `null` or `undefined`. -/
def isNullish : Option JSVal → Bool
  | none => true
  | some .null => true
  | some _ => false

/-- `data.map(row => row[col]).filter(v => v !== null && v !== undefined)`. -/
def nonNullValues (data : List JSVal) (col : String) : List JSVal :=
  data.filterMap (fun row =>
    match rowGet row col with
    | some v => if v = JSVal.null then none else some v
    | none => none)

/-- First-occurrence deduplication (the key order of a JS `Map` or `Set`
built by left-to-right insertion). -/
def firstDedupGo (seen : List String) : List String → List String
  | [] => []
  | x :: xs => if x ∈ seen then firstDedupGo seen xs else x :: firstDedupGo (x :: seen) xs

/-- Distinct elements in first-occurrence order. -/
def firstDedup (l : List String) : List String :=
  firstDedupGo [] l

/-- `new Set(values.map(v => JSON.stringify(v))).size`. -/
def uniqueCount (vals : List JSVal) : Nat :=
  ((vals.map jsonStringify).toFinset).card

/-- The `valueCounts` Map built by the `forEach` over `String(v)` keys:
each distinct stringified value in first-insertion order, paired with its
total count. -/
def countsList (vals : List JSVal) : List (String × Nat) :=
  (firstDedup (vals.map jsToString)).map
    (fun k => (k, (vals.map jsToString).count k))

/-- Stable insertion placing `x` before the first entry whose count is not
greater; together with `sortByCountDesc` this models the JavaScript
stable `sort((a, b) => b[1] - a[1])`. -/
def insertByCount (x : String × Nat) : List (String × Nat) → List (String × Nat)
  | [] => [x]
  | y :: ys => if y.2 ≤ x.2 then x :: y :: ys else y :: insertByCount x ys

/-- Stable sort by descending count (JS `Array.prototype.sort` with
comparator `(a, b) => b[1] - a[1]`; ES2019 sort is stable). -/
def sortByCountDesc : List (String × Nat) → List (String × Nat)
  | [] => []
  | x :: xs => insertByCount x (sortByCountDesc xs)

/-- The numeric aggregates of `extractMetadata`'s stats loop, `none` when
no non-null value is numeric: `(min, max, sum, avg)` over the numeric
subset only. -/
def numericAggregates (numericValues : List Int) :
    Option Int × Option Int × Option Int × Option ℚ :=
  match numericValues with
  | [] => (none, none, none, none)
  | n :: rest =>
    (some (rest.foldl Min.min n), some (rest.foldl Max.max n),
     some (numericValues.sum),
     some ((numericValues.sum : ℚ) / (numericValues.length : ℚ)))

/-- The column statistics computed for one column by `extractMetadata`. -/
def columnStatsFor (data : List JSVal) (col : String) : ColumnStats :=
  let vals := nonNullValues data col
  let unique := uniqueCount vals
  let topValues :=
    if unique ≤ 20 then
      some (((sortByCountDesc (countsList vals)).take 5).map Prod.fst)
    else none
  let aggs := numericAggregates
    (vals.filterMap (fun v => match v with | .num n => some n | _ => none))
  { column := col, unique := unique, topValues := topValues
    min := aggs.1, max := aggs.2.1, sum := aggs.2.2.1, avg := aggs.2.2.2
    nullCount := data.length - vals.length }

/-- The schema entry computed for one column by `extractMetadata`: the type
comes from the first row's value alone, `nullable` scans every row. -/
def schemaFor (data : List JSVal) (firstRow : JSVal) (col : String) : ColumnSchema :=
  { column := col
    type := inferType (rowGet firstRow col)
    nullable := data.any (fun row => isNullish (rowGet row col)) }

/-- `extractMetadata(data, handleId, sourceTool, accessToken, dataSource,
semanticAnalysis)`. -/
def extractMetadata (data : List JSVal) (handleId sourceTool accessToken : String)
    (dataSource : Option DataSource) (semanticAnalysis : Option SemanticAnalysis) :
    DataVaultMetadata :=
  match data with
  | [] =>
    { handleId := handleId, fetchToken := accessToken, sourceTool := sourceTool
      schema := [], rowCount := 0, sampleRows := [], columnStats := []
      dataSource := dataSource, semantics := semanticAnalysis
      dataOffloaded := true, note := emptyDataNote handleId accessToken }
  | firstRow :: _ =>
    let columns := match firstRow with | .obj _ fs => jsFieldsKeys fs | _ => []
    let sampleRows := data.take 5
    { handleId := handleId, fetchToken := accessToken, sourceTool := sourceTool
      schema := columns.map (schemaFor data firstRow)
      rowCount := data.length
      sampleRows := sampleRows
      columnStats := columns.map (columnStatsFor data)
      dataSource := dataSource, semantics := semanticAnalysis
      dataOffloaded := true
      note := offloadedDataNote handleId accessToken sampleRows.length data.length }

/-- The vault entry stored in Redis (JSON serialized under
`data-vault:<handleId>` with TTL `ttlSeconds`). -/
structure VaultEntry where
  fullData : List JSVal
  metadata : DataVaultMetadata
  userDid : String
  sessionId : String
  createdAt : Nat
  accessToken : String
  deriving DecidableEq, Repr

/-- The entry built by `store(data, userDid, sessionId, sourceTool,
dataSourceInfo, semanticAnalysis)`; the minted `handleId`, `accessToken`
and the clock reading `now` are parameters of the model.  `store` never
inspects `data.length`: the entry records `data` as-is. -/
def storeEntry (data : List JSVal) (userDid sessionId sourceTool : String)
    (handleId accessToken : String) (now : Nat)
    (dataSourceInfo : Option (Option JSVal × Option String))
    (semanticAnalysis : Option SemanticAnalysis) : VaultEntry :=
  let dataSource : Option DataSource :=
    match dataSourceInfo with
    | some info =>
      some { toolName := sourceTool, toolArgs := info.1
             userQuery := info.2, timestamp := now }
    | none => none
  { fullData := data
    metadata := extractMetadata data handleId sourceTool accessToken dataSource semanticAnalysis
    userDid := userDid
    sessionId := sessionId
    createdAt := now
    accessToken := accessToken }

/-! ## The read path (`retrieve` / `retrieveWithMetadata` / the query
service's `getVaultEntry`)

`retrieve` runs WATCH, GET, the ownership and token checks, then a
MULTI/EXEC `EXPIRE key gracePeriodSeconds`.  The model exposes the
concurrency as a schedule: one `(state, conflict)` pair per attempt,
where `state` is the entry (with its remaining TTL in seconds) the
attempt observes under WATCH, and `conflict` tells whether the
MULTI/EXEC aborts because WATCH detected a concurrent modification. -/

/-- Outcome of one WATCH/GET/validate/EXPIRE attempt. -/
inductive RetrieveStep where
  | done (result : Option (List JSVal)) (newState : Option (VaultEntry × Nat))
  | conflictRetry
  deriving DecidableEq, Repr

/-- The guard `if (accessToken && entry.accessToken !== accessToken)`:
a JS truthiness test, so an absent or empty token skips the check. -/
def tokenRejected (e : VaultEntry) : Option String → Bool
  | some t => t ≠ "" && e.accessToken ≠ t
  | none => false

/-- One attempt of `retrieve`: a missing key, a foreign owner, or a
provided-but-wrong token all return the same `null`; otherwise the
MULTI/EXEC either conflicts (the code then re-enters `retrieve`) or
sets the key's TTL to `gracePeriodSeconds` and returns the rows. -/
def retrieveAttempt (grace : Nat) (st : Option (VaultEntry × Nat))
    (userDid : String) (accessToken : Option String) (conflict : Bool) : RetrieveStep :=
  match st with
  | none => .done none none
  | some (e, ttl) =>
    if e.userDid ≠ userDid then .done none (some (e, ttl))
    else if tokenRejected e accessToken then .done none (some (e, ttl))
    else if conflict then .conflictRetry
    else .done (some e.fullData) (some (e, grace))

/-- `retrieve(handleId, userDid, accessToken)` over a schedule of
attempts.  On conflict the code re-enters `retrieve` with no retry
counter, so the recursion simply consumes the next schedule entry;
`none` means every scheduled attempt conflicted and the call is still
retrying (it has returned nothing to the caller). -/
def retrieveRun (grace : Nat) (userDid : String) (accessToken : Option String) :
    List (Option (VaultEntry × Nat) × Bool) →
    Option (Option (List JSVal) × Option (VaultEntry × Nat))
  | [] => none
  | (st, cf) :: rest =>
    match retrieveAttempt grace st userDid accessToken cf with
    | .done r ns => some (r, ns)
    | .conflictRetry => retrieveRun grace userDid accessToken rest

/-- Outcome of one attempt of `retrieveWithMetadata`. -/
inductive RetrieveWMStep where
  | done (result : Option (List JSVal × DataVaultMetadata))
      (newState : Option (VaultEntry × Nat))
  | conflictRetry
  deriving DecidableEq, Repr

/-- One attempt of `retrieveWithMetadata`: the same checks and TTL
reduction as `retrieve`, returning the rows together with the cached
metadata envelope. -/
def retrieveWMAttempt (grace : Nat) (st : Option (VaultEntry × Nat))
    (userDid : String) (accessToken : Option String) (conflict : Bool) : RetrieveWMStep :=
  match st with
  | none => .done none none
  | some (e, ttl) =>
    if e.userDid ≠ userDid then .done none (some (e, ttl))
    else if tokenRejected e accessToken then .done none (some (e, ttl))
    else if conflict then .conflictRetry
    else .done (some (e.fullData, e.metadata)) (some (e, grace))

/-- `retrieveWithMetadata(handleId, userDid, accessToken)` over a schedule
of attempts, with the same unbounded re-entry on conflict as
`retrieve`. -/
def retrieveWithMetadataRun (grace : Nat) (userDid : String) (accessToken : Option String) :
    List (Option (VaultEntry × Nat) × Bool) →
    Option (Option (List JSVal × DataVaultMetadata) × Option (VaultEntry × Nat))
  | [] => none
  | (st, cf) :: rest =>
    match retrieveWMAttempt grace st userDid accessToken cf with
    | .done r ns => some (r, ns)
    | .conflictRetry => retrieveWithMetadataRun grace userDid accessToken rest

/-! ## DataVaultQueryService (`query.service.ts`) -/

/-- `getVaultEntry(handleId, userDid, accessToken)`: the query service's
read path.  Unlike `retrieve`, the token here is a required parameter
and is always compared; a missing key, foreign owner, or wrong token are
indistinguishable (`null`). -/
def getVaultEntry (st : Option VaultEntry) (userDid accessToken : String) :
    Option VaultEntry :=
  match st with
  | none => none
  | some e =>
    if e.userDid ≠ userDid then none
    else if e.accessToken ≠ accessToken then none
    else some e

/-- ASCII upper-casing (`sql.toUpperCase()` on SQL text). -/
def toUpperAscii (s : String) : String :=
  charsToString (s.toList.map Char.toUpper)

/-- Does the character list begin with the pattern? -/
def listBegins : List Char → List Char → Bool
  | [], _ => true
  | _ :: _, [] => false
  | p :: ps, c :: cs => p = c && listBegins ps cs

/-- Substring occurrence test on character lists. -/
def listHasSub (pat : List Char) : List Char → Bool
  | [] => listBegins pat []
  | c :: cs => listBegins pat (c :: cs) || listHasSub pat cs

/-- JavaScript `s.includes(pat)`. -/
def strHasSub (s pat : String) : Bool :=
  listHasSub pat.toList s.toList

/-- Fuelled global replacement scan over characters (left to right,
non-overlapping); the fuel is the input length, consumed one character
per step. -/
def replaceCharsGo (pat rep : List Char) : Nat → List Char → List Char
  | 0, cs => cs
  | _ + 1, [] => []
  | fuel + 1, c :: cs =>
    if listBegins pat (c :: cs) && !pat.isEmpty then
      rep ++ replaceCharsGo pat rep fuel (List.drop (pat.length - 1) cs)
    else c :: replaceCharsGo pat rep fuel cs

/-- JavaScript `s.replace(/pat/g, rep)` for a literal pattern. -/
def replaceAllStr (s pat rep : String) : String :=
  charsToString (replaceCharsGo pat.toList rep.toList s.toList.length s.toList)

/-- Hard cap constant of the query service. -/
def maxResultRows : Nat := 10000

/-- `ensureLimit(sql)`: append ` LIMIT 10000` unless the upper-cased SQL
already contains the substring `LIMIT`. -/
def ensureLimit (sql : String) : String :=
  if strHasSub (toUpperAscii sql) "LIMIT" then sql
  else sql ++ " LIMIT " ++ toString maxResultRows

/-- The synthesized temp-table name: `vault_` + handle with `-` → `_`. -/
def tableNameFor (handleId : String) : String :=
  "vault_" ++ replaceAllStr handleId "-" "_"

/-- `sql.replace(/\{table\}/g, tableName)`. -/
def substTable (sql tableName : String) : String :=
  replaceAllStr sql "\x7btable\x7d" tableName

/-- A result row of the embedded SQL engine. -/
def QueryRow : Type := List (String × JSVal)

/-- Result from executing a SQL query on vaulted data. -/
structure QueryResult where
  rows : List QueryRow
  rowCount : Nat
  columns : List String
  executionTimeMs : Nat
  truncated : Bool

/-- `executeQuery({handleId, sql, userDid, accessToken})`.  The embedded
SQL engine (DuckDB, an external dependency) is a parameter mapping the
loaded table and the final SQL text to result rows; `execTime` stands
for the measured wall-clock duration.  `none` models the thrown errors:
entry not found / access denied, and `loadDataIntoTable`'s rejection of
an empty data array.  The engine's rows are returned unmodified; the
service never truncates them, and `truncated` is the test
`rows.length >= MAX_RESULT_ROWS`. -/
def executeQuery (engine : List JSVal → String → List QueryRow)
    (st : Option VaultEntry) (handleId sql userDid accessToken : String)
    (execTime : Nat) : Option QueryResult :=
  match getVaultEntry st userDid accessToken with
  | none => none
  | some entry =>
    if entry.fullData.isEmpty then none
    else
      let tableName := tableNameFor handleId
      let executableSql := substTable sql tableName
      let limitedSql := ensureLimit executableSql
      let rows := engine entry.fullData limitedSql
      some
        { rows := rows
          rowCount := rows.length
          columns := match rows with | [] => [] | r :: _ => r.map Prod.fst
          executionTimeMs := execTime
          truncated := decide (maxResultRows ≤ rows.length) }

/-- The last two whitespace-separated words of the SQL, when they form a
trailing `LIMIT <n>` clause. -/
def trailingLimit (sql : String) : Option Nat :=
  match ((splitOnChar ' ' sql.toList).map charsToString).reverse with
  | numStr :: limitWord :: _ =>
    if toUpperAscii limitWord = "LIMIT" then parseNatStr numStr else none
  | _ => none

/-- A table row as the engine materializes it from a stored record. -/
def rowToQueryRow : JSVal → QueryRow
  | .obj _ fs => jsFieldsToList fs
  | _ => []

/-- Modelled from the spec: the external embedded SQL engine (DuckDB) on
`SELECT * FROM {table}`-shaped queries — it returns every loaded row in
order, truncated by a trailing `LIMIT n` clause when one is present.
Used to instantiate `executeQuery`'s engine parameter on concrete
inputs. -/
def selectAllEngine (table : List JSVal) (sql : String) : List QueryRow :=
  match trailingLimit sql with
  | some n => (table.take n).map rowToQueryRow
  | none => table.map rowToQueryRow

/-! ## The offload pipeline's store loop (`mcp-tool-wrapper.ts`) -/

/-- The datasets the wrapper sends to `DataVaultService.store`: every
extracted value that is an array — `if (!Array.isArray(data)) continue;`
is the only filter, so empty arrays pass through. -/
def arraysToStore (extracted : List (String × JSVal)) : List (List JSVal) :=
  extracted.filterMap (fun kv =>
    match kv.2 with
    | .arr _ es => some (jsListToList es)
    | _ => none)

/-! ## Spec-side comparison definitions and concrete fixtures -/

/-- Is the value a JavaScript array (`Array.isArray`)? -/
def isJSArray : JSVal → Bool
  | .arr _ _ => true
  | _ => false

/-- Row count of an array value (0 for non-arrays). -/
def rowCountOf : JSVal → Nat
  | .arr _ es => jsListLength es
  | _ => 0

/-- Modelled from the spec, for comparison with the code's `shouldOffload`:
«`shouldOffload(x)` ⇔ `x` is an array AND at least one of
(rows>R, bytes>B, bytes/4>K)». -/
def shouldOffloadSpecModel (cfg : DataVaultConfig) (v : JSVal) : Prop :=
  isJSArray v = true ∧
    (cfg.maxInlineRows < rowCountOf v ∨
     cfg.maxInlineBytes < (jsonStringify v).length ∨
     (cfg.maxInlineTokens : ℚ) < ((jsonStringify v).length : ℚ) / 4)

/-- Modelled from the spec, for comparison with the code's schema typing:
«For each column, infer type from the first non-null value» across the
rows. -/
def schemaTypeFromFirstNonNull (data : List JSVal) (col : String) : JType :=
  inferType (nonNullValues data col).head?

/-- A one-field test row. -/
def cxRow : JSVal :=
  .obj 0 (.cons "a" (.num 1) .nil)

/-- A concrete vault entry: owner `alice`, access token `tok`, one row. -/
def cxEntry : VaultEntry :=
  { fullData := [cxRow]
    metadata := extractMetadata [cxRow] "vault-1" "tool" "tok" none none
    userDid := "alice"
    sessionId := "s1"
    createdAt := 0
    accessToken := "tok" }

/-- A tool response `{"data": [], "meta": 1}` whose extraction path
addresses an empty array. -/
def cxResp4 : JSVal :=
  .obj 0 (.cons "data" (.arr 1 .nil) (.cons "meta" (.num 1) .nil))

/-- A vault entry holding 10001 rows (one above the query cap). -/
def cx5Entry : VaultEntry :=
  { fullData := List.replicate 10001 cxRow
    metadata := extractMetadata (List.replicate 10001 cxRow) "vault-5" "tool" "tok" none none
    userDid := "alice"
    sessionId := "s5"
    createdAt := 0
    accessToken := "tok" }

/-- A user query that carries its own LIMIT above the cap. -/
def cx5Sql : String :=
  "SELECT * FROM \x7btable\x7d LIMIT 10001"

/-- The rows the modelled engine returns for `cx5Sql` over `cx5Entry`. -/
def cx5Rows : List QueryRow :=
  (cx5Entry.fullData.take 10001).map rowToQueryRow

/-- The query result produced for `cx5Sql` over `cx5Entry`. -/
def cx5Res : QueryResult :=
  { rows := cx5Rows
    rowCount := cx5Rows.length
    columns := match cx5Rows with | [] => [] | r :: _ => r.map Prod.fst
    executionTimeMs := 7
    truncated := decide (maxResultRows ≤ cx5Rows.length) }

/-- Two rows whose column `a` is `null` in the first row and `5` in the
second. -/
def cxRows6 : List JSVal :=
  [.obj 0 (.cons "a" JSVal.null .nil), .obj 1 (.cons "a" (.num 5) .nil)]

/-- A response `{"a": [1], "b": 2}` with node identities 0 (the object)
and 1 (the array). -/
def cx9resp : JSVal :=
  .obj 0 (.cons "a" (.arr 1 (.cons (.num 1) .nil)) (.cons "b" (.num 2) .nil))

/-! ## Theorems -/

theorem tokenRejected_eq_false_iff (e : VaultEntry) (tok : Option String) :
    tokenRejected e tok = false ↔
      (tok = none ∨ tok = some "" ∨ tok = some e.accessToken) := by
  cases tok with
  | none => simp [tokenRejected]
  | some t =>
    by_cases h : t = "" <;> by_cases h2 : e.accessToken = t <;>
      simp_all [tokenRejected]
    exact fun hx => (h2 hx.symm)

/-- C7: for every input `x`, `shouldOffload(x)` is true iff `x` is an array
and at least one of: its length exceeds `maxInlineRows`, its JSON
serialization exceeds `maxInlineBytes`, or the estimated token count
(serialized size divided by 4) exceeds `maxInlineTokens`. -/
theorem C7_shouldOffload_iff (cfg : DataVaultConfig) (v : JSVal) :
    shouldOffload cfg v = true ↔ shouldOffloadSpecModel cfg v := by
  cases v with
  | arr tg es =>
    simp only [shouldOffload, shouldOffloadSpecModel, isJSArray, rowCountOf]
    split_ifs with h1 h2 h3 <;> simp_all
  | null => simp [shouldOffload, shouldOffloadSpecModel, isJSArray]
  | boolean b => simp [shouldOffload, shouldOffloadSpecModel, isJSArray]
  | num n => simp [shouldOffload, shouldOffloadSpecModel, isJSArray]
  | str s => simp [shouldOffload, shouldOffloadSpecModel, isJSArray]
  | obj tg fs => simp [shouldOffload, shouldOffloadSpecModel, isJSArray]

/-- C1 (counterexample): `retrieve` with a matching owner but an absent
token returns the stored rows, not the `null` "not found" result — the
claim requires `accessToken == token` on every read and lists "token
absent" among the combinations that must be indistinguishable from a
missing handle, but the code's `if (accessToken && ...)` guard skips the
token check entirely when no token is supplied. -/
theorem C1_counterexample :
    retrieveRun 300 "alice" none [(some (cxEntry, 1000), false)] =
      some (some cxEntry.fullData, some (cxEntry, 300)) ∧
    (some cxEntry.fullData : Option (List JSVal)) ≠ none := by
  exact ⟨rfl, by simp⟩

/-- C1 (amended): on the `retrieve` and `retrieveWithMetadata` paths the
rows (for the latter: rows plus metadata) are returned iff the handle
exists, the owner matches, and the token is absent, empty, or equal to
the stored one — when a (non-empty) token is supplied it must match,
but an absent token skips the check (both functions share the
`if (accessToken && ...)` guard); every failure is the same `null`.
On the query service's `getVaultEntry` path the token is mandatory and
all three of handle, owner and token must match. -/
theorem C1_amended (grace : Nat) (st : Option (VaultEntry × Nat)) (u : String)
    (tok : Option String) (stq : Option VaultEntry) (uq tq : String) :
    ((∃ rows ns, retrieveAttempt grace st u tok false = .done (some rows) ns) ↔
      ∃ e ttl, st = some (e, ttl) ∧ e.userDid = u ∧
        (tok = none ∨ tok = some "" ∨ tok = some e.accessToken)) ∧
    (∀ e ttl, st = some (e, ttl) → e.userDid = u →
      (tok = none ∨ tok = some "" ∨ tok = some e.accessToken) →
      retrieveAttempt grace st u tok false = .done (some e.fullData) (some (e, grace))) ∧
    ((∃ rm ns, retrieveWMAttempt grace st u tok false = .done (some rm) ns) ↔
      ∃ e ttl, st = some (e, ttl) ∧ e.userDid = u ∧
        (tok = none ∨ tok = some "" ∨ tok = some e.accessToken)) ∧
    (∀ e ttl, st = some (e, ttl) → e.userDid = u →
      (tok = none ∨ tok = some "" ∨ tok = some e.accessToken) →
      retrieveWMAttempt grace st u tok false =
        .done (some (e.fullData, e.metadata)) (some (e, grace))) ∧
    ((getVaultEntry stq uq tq).isSome = true ↔
      ∃ e, stq = some e ∧ e.userDid = uq ∧ e.accessToken = tq) := by
  refine ⟨?_, ?_, ?_, ?_, ?_⟩
  · cases st with
    | none => simp [retrieveAttempt]
    | some p =>
      obtain ⟨e, ttl⟩ := p
      by_cases hu : e.userDid = u
      · by_cases hr : tokenRejected e tok = true
        · have hneg : ¬ (tok = none ∨ tok = some "" ∨ tok = some e.accessToken) := by
            intro hc
            rw [(tokenRejected_eq_false_iff e tok).mpr hc] at hr
            exact Bool.false_ne_true hr
          simp [retrieveAttempt, hu, hr, hneg]
        · have hr' : tokenRejected e tok = false := by
            cases h : tokenRejected e tok
            · rfl
            · exact absurd h hr
          simp [retrieveAttempt, hu, hr',
            (tokenRejected_eq_false_iff e tok).mp hr']
      · simp [retrieveAttempt, hu]
  · rintro e ttl rfl hu htok
    have hr' : tokenRejected e tok = false := (tokenRejected_eq_false_iff e tok).mpr htok
    simp [retrieveAttempt, hu, hr']
  · cases st with
    | none => simp [retrieveWMAttempt]
    | some p =>
      obtain ⟨e, ttl⟩ := p
      by_cases hu : e.userDid = u
      · by_cases hr : tokenRejected e tok = true
        · have hneg : ¬ (tok = none ∨ tok = some "" ∨ tok = some e.accessToken) := by
            intro hc
            rw [(tokenRejected_eq_false_iff e tok).mpr hc] at hr
            exact Bool.false_ne_true hr
          simp [retrieveWMAttempt, hu, hr, hneg]
        · have hr' : tokenRejected e tok = false := by
            cases h : tokenRejected e tok
            · rfl
            · exact absurd h hr
          simp [retrieveWMAttempt, hu, hr',
            (tokenRejected_eq_false_iff e tok).mp hr']
      · simp [retrieveWMAttempt, hu]
  · rintro e ttl rfl hu htok
    have hr' : tokenRejected e tok = false := (tokenRejected_eq_false_iff e tok).mpr htok
    simp [retrieveWMAttempt, hu, hr']
  · cases stq with
    | none => simp [getVaultEntry]
    | some e =>
      by_cases h1 : e.userDid = uq
      · by_cases h2 : e.accessToken = tq
        · simp [getVaultEntry, h1, h2]
        · simp [getVaultEntry, h1, h2]
      · simp [getVaultEntry, h1]

/-- C1 (witness for the amended theorem): concrete successful `retrieve`
and `retrieveWithMetadata` attempts with an absent token (the HTTP
controller's tokenless read path), and a concrete `getVaultEntry`
success. -/
theorem C1_amended_witness :
    retrieveAttempt 300 (some (cxEntry, 1000)) "alice" none false =
      .done (some cxEntry.fullData) (some (cxEntry, 300)) ∧
    retrieveWMAttempt 300 (some (cxEntry, 1000)) "alice" none false =
      .done (some (cxEntry.fullData, cxEntry.metadata)) (some (cxEntry, 300)) ∧
    (getVaultEntry (some cxEntry) "alice" "tok").isSome = true := by
  refine ⟨?_, ?_, ?_⟩
  · exact (C1_amended 300 (some (cxEntry, 1000)) "alice" none (some cxEntry) "alice" "tok").2.1
      cxEntry 1000 rfl rfl (Or.inl rfl)
  · exact (C1_amended 300 (some (cxEntry, 1000)) "alice" none
      (some cxEntry) "alice" "tok").2.2.2.1 cxEntry 1000 rfl rfl (Or.inl rfl)
  · exact (C1_amended 300 (some (cxEntry, 1000)) "alice" none
      (some cxEntry) "alice" "tok").2.2.2.2.mpr ⟨cxEntry, rfl, rfl, rfl⟩

/-- C2 (counterexample): an entry with only 10 seconds of remaining
lifetime (less than the 300-second grace period) is successfully
retrieved and its remaining lifetime becomes 300 seconds — the
`MULTI; EXPIRE key grace` runs unconditionally on every successful
retrieval, so a retrieval can extend the remaining lifetime, which the
claim says never happens (and the reduction is not limited to the first
retrieval). -/
theorem C2_counterexample :
    retrieveRun 300 "alice" (some "tok") [(some (cxEntry, 10), false)] =
      some (some cxEntry.fullData, some (cxEntry, 300)) ∧ (10 : Nat) < 300 :=
  ⟨rfl, by norm_num⟩

/-- C2 (amended): every successful retrieval — first or repeated — sets the
entry's remaining lifetime to exactly `gracePeriodSeconds`, regardless
of the lifetime remaining beforehand (so it extends the lifetime
whenever less than the grace period remains; `createdAt + ttl` is the
deletion deadline only until the first successful retrieval). -/
theorem C2_amended (grace ttl : Nat) (u : String) (tok : Option String)
    (e : VaultEntry) (hu : e.userDid = u)
    (htok : tokenRejected e tok = false) :
    retrieveAttempt grace (some (e, ttl)) u tok false =
      .done (some e.fullData) (some (e, grace)) := by
  simp [retrieveAttempt, hu, htok]

/-- C2 (witness): the amended theorem applied at a concrete entry whose
remaining lifetime (10 s) is below the grace period (300 s). -/
theorem C2_amended_witness :
    retrieveAttempt 300 (some (cxEntry, 10)) "alice" (some "tok") false =
      .done (some cxEntry.fullData) (some (cxEntry, 300)) :=
  C2_amended 300 10 "alice" (some "tok") cxEntry rfl rfl

/-- C3 (code bug): the conflict handler re-enters `retrieve` with no retry
counter, so after two consecutive WATCH conflicts the call does not
return "not found" — it simply runs a third attempt (first conjunct:
the third attempt succeeds and returns the rows), and under sustained
conflict it retries forever without ever returning anything (second
conjunct) — contradicting the code's own comment "Retry once on
concurrent modification" and spec §4.2/§5, which the claim restates. -/
theorem C3_unbounded_retry :
    retrieveRun 300 "alice" (some "tok")
      [(some (cxEntry, 100), true), (some (cxEntry, 100), true),
       (some (cxEntry, 100), false)] =
      some (some cxEntry.fullData, some (cxEntry, 300)) ∧
    ∀ n : Nat, retrieveRun 300 "alice" (some "tok")
      (List.replicate n (some (cxEntry, 100), true)) = none := by
  constructor
  · rfl
  · intro n
    induction n with
    | zero => rfl
    | succ m ih =>
      rw [List.replicate_succ, retrieveRun]
      have hstep : retrieveAttempt 300 (some (cxEntry, 100)) "alice" (some "tok") true =
          .conflictRetry := rfl
      rw [hstep]
      exact ih

/-- C4 (counterexample): for the response `{"data": [], "meta": 1}` with
extraction path `data`, the extracted map holds an empty array, the
wrapper's store loop (whose only filter is `Array.isArray`) passes it to
`store`, and `store` records it unchanged: a vault entry with
`len(fullData) = 0` is created (with a `rowCount = 0` envelope), so the
claimed invariant `len(fullData) ≥ 1` fails. -/
theorem C4_counterexample :
    (extractDataByPaths 10 cxResp4 ["data"] []).map (fun r => arraysToStore r.1) =
      some [([] : List JSVal)] ∧
    (storeEntry [] "alice" "s1" "tool" "vault-1" "tok" 0 none none).fullData = [] ∧
    (storeEntry [] "alice" "s1" "tool" "vault-1" "tok" 0 none none).metadata.rowCount = 0 := by
  refine ⟨by decide, rfl, rfl⟩

/-- C4 (amended): the offload pipeline stores exactly the array-valued
extractions — empty arrays included — and `store` records the data
unchanged with no emptiness check; a zero-row entry's envelope has
`rowCount = 0` and the distinct "no data" note. -/
theorem C4_amended (extracted : List (String × JSVal)) (xs : List JSVal)
    (data : List JSVal) (userDid sessionId sourceTool handleId accessToken : String)
    (now : Nat) (dsi : Option (Option JSVal × Option String)) (sa : Option SemanticAnalysis) :
    (xs ∈ arraysToStore extracted ↔
      ∃ p t es, (p, JSVal.arr t es) ∈ extracted ∧ xs = jsListToList es) ∧
    (storeEntry data userDid sessionId sourceTool handleId accessToken now dsi sa).fullData
      = data ∧
    (extractMetadata [] handleId sourceTool accessToken none sa).rowCount = 0 ∧
    (extractMetadata [] handleId sourceTool accessToken none sa).note =
      emptyDataNote handleId accessToken := by
  refine ⟨?_, rfl, rfl, rfl⟩
  constructor
  · intro hx
    rcases List.mem_filterMap.mp hx with ⟨⟨p, v⟩, hmem, hv⟩
    cases v with
    | arr t es => exact ⟨p, t, es, hmem, by simpa using hv.symm⟩
    | null => exact Option.noConfusion hv
    | boolean b => exact Option.noConfusion hv
    | num n => exact Option.noConfusion hv
    | str s => exact Option.noConfusion hv
    | obj t fs => exact Option.noConfusion hv
  · rintro ⟨p, t, es, hmem, rfl⟩
    exact List.mem_filterMap.mpr ⟨(p, .arr t es), hmem, rfl⟩

/-- C5 (counterexample): a stored dataset of 10001 rows queried with
`SELECT * FROM {table} LIMIT 10001` — the SQL contains `LIMIT`, so
`ensureLimit` leaves it unchanged, the engine returns 10001 rows, and
`executeQuery` returns them unmodified: the result exceeds
`MAX_RESULT_ROWS`, and `truncated` is `true` although the service
truncated nothing. -/
theorem C5_counterexample :
    executeQuery selectAllEngine (some cx5Entry) "h" cx5Sql "alice" "tok" 7 =
      some cx5Res ∧
    cx5Res.rowCount = 10001 ∧ maxResultRows < cx5Res.rowCount ∧
    cx5Res.truncated = true := by
  have hlen : cx5Rows.length = 10001 := by
    show ((cx5Entry.fullData.take 10001).map rowToQueryRow).length = 10001
    rw [List.length_map, List.length_take]
    show min 10001 (List.replicate 10001 cxRow).length = 10001
    rw [List.length_replicate]
    exact Nat.min_self 10001
  have hsql : ensureLimit (substTable cx5Sql (tableNameFor "h")) =
      "SELECT * FROM vault_h LIMIT 10001" := by decide
  have hlim : trailingLimit "SELECT * FROM vault_h LIMIT 10001" = some 10001 := by decide
  have hrows : selectAllEngine cx5Entry.fullData
      (ensureLimit (substTable cx5Sql (tableNameFor "h"))) = cx5Rows := by
    rw [hsql]
    unfold selectAllEngine
    rw [hlim]
    rfl
  have hentry : getVaultEntry (some cx5Entry) "alice" "tok" = some cx5Entry := rfl
  have hne : cx5Entry.fullData.isEmpty = false := by
    show (List.replicate 10001 cxRow).isEmpty = false
    rw [List.replicate_succ]
    rfl
  refine ⟨?_, hlen, ?_, ?_⟩
  · unfold executeQuery
    rw [hentry]
    simp only [hne, Bool.false_eq_true, if_false]
    rw [hrows]
    rfl
  · show maxResultRows < cx5Rows.length
    rw [hlen]
    norm_num [maxResultRows]
  · have hb : decide (maxResultRows ≤ cx5Rows.length) = true := by
      rw [hlen]
      norm_num [maxResultRows]
    simp only [cx5Res]
    exact hb

/-- C5 (amended): `executeQuery` returns the engine's rows unmodified (it
never truncates), with `truncated` the test `rowCount ≥ MAX_RESULT_ROWS`;
when the SQL after `{table}` substitution does not contain the substring
`LIMIT` (case-insensitive), ` LIMIT 10000` is appended, and the result
respects the 10000-row cap exactly when the engine's answer to the final
SQL does — a user-supplied `LIMIT` is passed through unchanged and may
exceed the cap. -/
theorem C5_amended (engine : List JSVal → String → List QueryRow)
    (st : Option VaultEntry) (handleId sql userDid accessToken : String)
    (execTime : Nat) (entry : VaultEntry)
    (hentry : getVaultEntry st userDid accessToken = some entry)
    (hne : entry.fullData.isEmpty = false) :
    executeQuery engine st handleId sql userDid accessToken execTime =
      some { rows := engine entry.fullData (ensureLimit (substTable sql (tableNameFor handleId)))
             rowCount := (engine entry.fullData
               (ensureLimit (substTable sql (tableNameFor handleId)))).length
             columns := match engine entry.fullData
                 (ensureLimit (substTable sql (tableNameFor handleId))) with
               | [] => [] | r :: _ => r.map Prod.fst
             executionTimeMs := execTime
             truncated := decide (maxResultRows ≤ (engine entry.fullData
               (ensureLimit (substTable sql (tableNameFor handleId)))).length) } ∧
    (strHasSub (toUpperAscii (substTable sql (tableNameFor handleId))) "LIMIT" = false →
      ensureLimit (substTable sql (tableNameFor handleId)) =
        substTable sql (tableNameFor handleId) ++ " LIMIT 10000") ∧
    ((engine entry.fullData (ensureLimit (substTable sql (tableNameFor handleId)))).length ≤
        maxResultRows →
      ∀ res, executeQuery engine st handleId sql userDid accessToken execTime = some res →
        res.rowCount ≤ maxResultRows) := by
  have hq : executeQuery engine st handleId sql userDid accessToken execTime =
      some { rows := engine entry.fullData (ensureLimit (substTable sql (tableNameFor handleId)))
             rowCount := (engine entry.fullData
               (ensureLimit (substTable sql (tableNameFor handleId)))).length
             columns := match engine entry.fullData
                 (ensureLimit (substTable sql (tableNameFor handleId))) with
               | [] => [] | r :: _ => r.map Prod.fst
             executionTimeMs := execTime
             truncated := decide (maxResultRows ≤ (engine entry.fullData
               (ensureLimit (substTable sql (tableNameFor handleId)))).length) } := by
    unfold executeQuery
    rw [hentry]
    simp only [hne, Bool.false_eq_true, if_false]
  refine ⟨hq, ?_, ?_⟩
  · intro h
    unfold ensureLimit
    rw [h]
    simp only [Bool.false_eq_true, if_false]
    rw [String.append_assoc]
    rfl
  · intro hle res hres
    rw [hq] at hres
    injection hres with hres
    rw [← hres]
    exact hle

/-- C5 (witness for the amended theorem): a query without `LIMIT` over a
one-row entry gets ` LIMIT 10000` appended after substitution. -/
theorem C5_amended_witness :
    ensureLimit (substTable "SELECT * FROM \x7btable\x7d" (tableNameFor "h")) =
      substTable "SELECT * FROM \x7btable\x7d" (tableNameFor "h") ++ " LIMIT 10000" := by
  exact (C5_amended selectAllEngine (some cxEntry) "h" "SELECT * FROM \x7btable\x7d"
    "alice" "tok" 3 cxEntry rfl rfl).2.1 (by decide)

/-- C6 (counterexample): rows `[{"a": null}, {"a": 5}]` — the code infers
the schema type from the first row's value alone (`inferType(firstRow[col])`),
yielding `null`, while the claim's rule (first non-null value across the
rows) yields `number`. -/
theorem C6_counterexample :
    (extractMetadata cxRows6 "vault-6" "tool" "tok" none none).schema =
      [{ column := "a", type := JType.null, nullable := true }] ∧
    schemaTypeFromFirstNonNull cxRows6 "a" = JType.number ∧
    JType.null ≠ JType.number := by
  refine ⟨by decide, by decide, by decide⟩

/-- C6 (amended): for a non-empty row array, the schema columns are the
first row's keys in order; each column's type is inferred from the first
row's value of that column alone (so a `null`/missing value in the first
row gives type `null` regardless of later rows, with ISO-8601-looking
strings classified as `date` by `inferType`), and `nullable` is true iff
some row has `null` or a missing value for that column. -/
theorem C6_amended (firstRow : JSVal) (rest : List JSVal)
    (handleId sourceTool accessToken : String) (ds : Option DataSource)
    (sa : Option SemanticAnalysis) :
    ((extractMetadata (firstRow :: rest) handleId sourceTool accessToken ds sa).schema.map
        (fun c => c.column) =
      (match firstRow with | .obj _ fs => jsFieldsKeys fs | _ => [])) ∧
    ∀ cs ∈ (extractMetadata (firstRow :: rest) handleId sourceTool accessToken ds sa).schema,
      cs.type = inferType (rowGet firstRow cs.column) ∧
      (cs.nullable = true ↔
        ∃ row ∈ firstRow :: rest, isNullish (rowGet row cs.column) = true) := by
  have hmapcol : ∀ cols : List String,
      (cols.map (schemaFor (firstRow :: rest) firstRow)).map
        (fun c : ColumnSchema => c.column) = cols := by
    intro cols
    induction cols with
    | nil => rfl
    | cons c cs ih => simp [schemaFor, ih]
  constructor
  · show ((match firstRow with | .obj _ fs => jsFieldsKeys fs | _ => []).map
        (schemaFor (firstRow :: rest) firstRow)).map (fun c : ColumnSchema => c.column) = _
    exact hmapcol _
  · intro cs hcs
    have hcs' : cs ∈ (match firstRow with
        | .obj _ fs => jsFieldsKeys fs | _ => []).map
        (schemaFor (firstRow :: rest) firstRow) := hcs
    rcases List.mem_map.mp hcs' with ⟨col, _, rfl⟩
    have hcol : (schemaFor (firstRow :: rest) firstRow col).column = col := rfl
    refine ⟨rfl, ?_⟩
    rw [hcol]
    show ((firstRow :: rest).any (fun row => isNullish (rowGet row col))) = true ↔ _
    rw [List.any_eq_true]

/-- C6 (witness for the amended theorem): the type of column `a` of
`cxRows6` equals `inferType` of the first row's value (which is `null`),
and `nullable` holds because the first row's value is `null`. -/
theorem C6_amended_witness :
    ({ column := "a", type := JType.null, nullable := true } : ColumnSchema).type =
      inferType (rowGet (JSVal.obj 0 (.cons "a" JSVal.null .nil)) "a") ∧
    (({ column := "a", type := JType.null, nullable := true } : ColumnSchema).nullable = true ↔
      ∃ row ∈ [JSVal.obj 0 (.cons "a" JSVal.null .nil), JSVal.obj 1 (.cons "a" (.num 5) .nil)],
        isNullish (rowGet row "a") = true) := by
  exact (C6_amended (.obj 0 (.cons "a" JSVal.null .nil))
    [.obj 1 (.cons "a" (.num 5) .nil)] "vault-6" "tool" "tok" none none).2
    { column := "a", type := JType.null, nullable := true } (by decide)


theorem mem_firstDedupGo (x : String) (l : List String) :
    ∀ seen, x ∈ firstDedupGo seen l ↔ x ∈ l ∧ x ∉ seen := by
  induction l with
  | nil => intro seen; simp [firstDedupGo]
  | cons y ys ih =>
    intro seen
    by_cases hy : y ∈ seen
    · rw [firstDedupGo, if_pos hy, ih seen]
      by_cases hxy : x = y
      · subst hxy; simp [hy]
      · simp [List.mem_cons, hxy]
    · rw [firstDedupGo, if_neg hy]
      by_cases hxy : x = y
      · subst hxy; simp [hy]
      · rw [List.mem_cons]
        constructor
        · rintro (h | hx)
          · exact absurd h hxy
          · rcases (ih (y :: seen)).mp hx with ⟨hin, hns⟩
            exact ⟨List.mem_cons_of_mem y hin,
              fun hc => hns (List.mem_cons_of_mem y hc)⟩
        · rintro ⟨hx, hns⟩
          rcases List.mem_cons.mp hx with h | hx
          · exact absurd h hxy
          · refine Or.inr ((ih (y :: seen)).mpr ⟨hx, ?_⟩)
            intro hc
            rcases List.mem_cons.mp hc with h | hc
            · exact hxy h
            · exact hns hc

theorem mem_firstDedup (x : String) (l : List String) :
    x ∈ firstDedup l ↔ x ∈ l := by
  rw [firstDedup, mem_firstDedupGo]
  simp

theorem insertByCount_perm (x : String × Nat) (s : List (String × Nat)) :
    (insertByCount x s).Perm (x :: s) := by
  induction s with
  | nil => exact List.Perm.refl _
  | cons y ys ih =>
    rw [insertByCount]
    by_cases h : y.2 ≤ x.2
    · rw [if_pos h]
    · rw [if_neg h]
      exact (ih.cons y).trans (List.Perm.swap x y ys)

theorem sortByCountDesc_perm (l : List (String × Nat)) :
    (sortByCountDesc l).Perm l := by
  induction l with
  | nil => exact List.Perm.refl _
  | cons x xs ih =>
    rw [sortByCountDesc]
    exact (insertByCount_perm x (sortByCountDesc xs)).trans (ih.cons x)

theorem insertByCount_pairwise (x : String × Nat) (s : List (String × Nat))
    (hs : s.Pairwise (fun a b => b.2 ≤ a.2)) :
    (insertByCount x s).Pairwise (fun a b => b.2 ≤ a.2) := by
  induction s with
  | nil => simp [insertByCount]
  | cons y ys ih =>
    rw [insertByCount]
    rcases List.pairwise_cons.mp hs with ⟨hy, hys⟩
    by_cases h : y.2 ≤ x.2
    · rw [if_pos h]
      refine List.Pairwise.cons ?_ hs
      intro z hz
      rcases List.mem_cons.mp hz with rfl | hz
      · exact h
      · exact le_trans (hy z hz) h
    · rw [if_neg h]
      refine List.Pairwise.cons ?_ (ih hys)
      intro z hz
      rcases (insertByCount_perm x ys).mem_iff.mp hz with hz'
      rcases List.mem_cons.mp hz' with rfl | hz'
      · exact le_of_not_le h
      · exact hy z hz'

theorem sortByCountDesc_pairwise (l : List (String × Nat)) :
    (sortByCountDesc l).Pairwise (fun a b => b.2 ≤ a.2) := by
  induction l with
  | nil => simp [sortByCountDesc]
  | cons x xs ih =>
    rw [sortByCountDesc]
    exact insertByCount_pairwise x (sortByCountDesc xs) ih

theorem filter_insertByCount (x : String × Nat) (s : List (String × Nat)) (n : Nat) :
    (insertByCount x s).filter (fun p => p.2 == n) =
      if x.2 = n then x :: s.filter (fun p => p.2 == n)
      else s.filter (fun p => p.2 == n) := by
  induction s with
  | nil =>
    by_cases h : x.2 = n <;> simp [insertByCount, List.filter_cons, beq_iff_eq, h]
  | cons y ys ih =>
    rw [insertByCount]
    by_cases hy : y.2 ≤ x.2
    · rw [if_pos hy]
      by_cases h : x.2 = n <;> simp [List.filter_cons, beq_iff_eq, h]
    · rw [if_neg hy]
      by_cases h : x.2 = n
      · have hyn : ¬ y.2 = n := by omega
        simp [List.filter_cons, beq_iff_eq, hyn, ih, h]
      · by_cases hyn : y.2 = n <;> simp [List.filter_cons, beq_iff_eq, hyn, ih, h]

theorem filter_sortByCountDesc (l : List (String × Nat)) (n : Nat) :
    (sortByCountDesc l).filter (fun p => p.2 == n) =
      l.filter (fun p => p.2 == n) := by
  induction l with
  | nil => rfl
  | cons x xs ih =>
    rw [sortByCountDesc, filter_insertByCount]
    by_cases h : x.2 = n <;> simp [List.filter_cons, beq_iff_eq, h, ih]

/-- C8: for every column, `unique` is the number of distinct JSON
serializations of the column's non-null values; `topValues` is present
iff `unique ≤ 20`, and then lists the first five of an ordering of the
per-stringified-value counts that is a permutation of the count table,
non-increasing in count, and — within each count class — in the count
table's order, which is first-occurrence order of the stringified
values (the count table's keys are the deduplicated stringified values
in first-occurrence order, each paired with its total count). -/
theorem C8_columnStats (data : List JSVal) (col : String) :
    (columnStatsFor data col).unique =
      ((nonNullValues data col).map jsonStringify).dedup.length ∧
    ((columnStatsFor data col).topValues.isSome ↔
      (columnStatsFor data col).unique ≤ 20) ∧
    ((countsList (nonNullValues data col)).map Prod.fst =
      firstDedup ((nonNullValues data col).map jsToString)) ∧
    (∀ kc ∈ countsList (nonNullValues data col),
      kc.2 = ((nonNullValues data col).map jsToString).count kc.1) ∧
    (∀ k, k ∈ (countsList (nonNullValues data col)).map Prod.fst ↔
      k ∈ (nonNullValues data col).map jsToString) ∧
    ∀ tv, (columnStatsFor data col).topValues = some tv →
      ∃ L : List (String × Nat), List.Perm L (countsList (nonNullValues data col)) ∧
        L.Pairwise (fun a b => b.2 ≤ a.2) ∧
        (∀ n, L.filter (fun p => p.2 == n) =
          (countsList (nonNullValues data col)).filter (fun p => p.2 == n)) ∧
        tv = (L.take 5).map Prod.fst := by
  have hkeys : (countsList (nonNullValues data col)).map Prod.fst =
      firstDedup ((nonNullValues data col).map jsToString) := by
    rw [countsList, List.map_map]
    exact List.map_id _
  refine ⟨?_, ?_, hkeys, ?_, ?_, ?_⟩
  · show ((nonNullValues data col).map jsonStringify).toFinset.card = _
    exact List.card_toFinset _
  · show (if uniqueCount (nonNullValues data col) ≤ 20 then
        some (((sortByCountDesc (countsList (nonNullValues data col))).take 5).map
          Prod.fst) else none).isSome ↔
      uniqueCount (nonNullValues data col) ≤ 20
    by_cases h : uniqueCount (nonNullValues data col) ≤ 20 <;> simp [h]
  · intro kc hkc
    rw [countsList] at hkc
    rcases List.mem_map.mp hkc with ⟨k, _, rfl⟩
    rfl
  · intro k
    rw [hkeys, mem_firstDedup]
  · intro tv htv
    have htv' : (if uniqueCount (nonNullValues data col) ≤ 20 then
        some (((sortByCountDesc (countsList (nonNullValues data col))).take 5).map
          Prod.fst) else none) = some tv := htv
    by_cases h : uniqueCount (nonNullValues data col) ≤ 20
    · rw [if_pos h] at htv'
      injection htv' with htv'
      exact ⟨sortByCountDesc (countsList (nonNullValues data col)),
        sortByCountDesc_perm _, sortByCountDesc_pairwise _,
        fun n => filter_sortByCountDesc _ n, htv'.symm⟩
    · rw [if_neg h] at htv'
      exact Option.noConfusion htv'

/-- C8 (witness): on the concrete rows `cxRows6` (column `a`, one non-null
value `5`), `topValues = ["5"]` satisfies the ordering characterization. -/
theorem C8_columnStats_witness :
    ∃ L : List (String × Nat), List.Perm L (countsList (nonNullValues cxRows6 "a")) ∧
      L.Pairwise (fun a b => b.2 ≤ a.2) ∧
      (∀ n, L.filter (fun p => p.2 == n) =
        (countsList (nonNullValues cxRows6 "a")).filter (fun p => p.2 == n)) ∧
      (["5"] : List String) = (L.take 5).map Prod.fst := by
  exact (C8_columnStats cxRows6 "a").2.2.2.2.2 ["5"] (by decide)

mutual

theorem retagVal_le : ∀ (c : Nat) (v : JSVal), c ≤ (retagVal c v).2
  | _, .null => le_refl _
  | _, .boolean _ => le_refl _
  | _, .num _ => le_refl _
  | _, .str _ => le_refl _
  | c, .arr _ es => by
    have h := retagList_le (c + 1) es
    show c ≤ (retagList (c + 1) es).2
    omega
  | c, .obj _ fs => by
    have h := retagFields_le (c + 1) fs
    show c ≤ (retagFields (c + 1) fs).2
    omega

theorem retagList_le : ∀ (c : Nat) (es : JSList), c ≤ (retagList c es).2
  | _, .nil => le_refl _
  | c, .cons v rest => by
    have h1 := retagVal_le c v
    have h2 := retagList_le (retagVal c v).2 rest
    show c ≤ (retagList (retagVal c v).2 rest).2
    omega

theorem retagFields_le : ∀ (c : Nat) (fs : JSFields), c ≤ (retagFields c fs).2
  | _, .nil => le_refl _
  | c, .cons _ v rest => by
    have h1 := retagVal_le c v
    have h2 := retagFields_le (retagVal c v).2 rest
    show c ≤ (retagFields (retagVal c v).2 rest).2
    omega

end

mutual

theorem tags_retagVal : ∀ (c : Nat) (v : JSVal), ∀ t ∈ tagsOf (retagVal c v).1, c ≤ t
  | _, .null => by intro t ht; simp [retagVal, tagsOf] at ht
  | _, .boolean _ => by intro t ht; simp [retagVal, tagsOf] at ht
  | _, .num _ => by intro t ht; simp [retagVal, tagsOf] at ht
  | _, .str _ => by intro t ht; simp [retagVal, tagsOf] at ht
  | c, .arr tg es => by
    intro t ht
    have ht' : t ∈ tagsOf (JSVal.arr c (retagList (c + 1) es).1) := ht
    rw [tagsOf] at ht'
    rcases List.mem_cons.mp ht' with rfl | ht'
    · exact le_refl _
    · have := tags_retagList (c + 1) es t ht'
      omega
  | c, .obj tg fs => by
    intro t ht
    have ht' : t ∈ tagsOf (JSVal.obj c (retagFields (c + 1) fs).1) := ht
    rw [tagsOf] at ht'
    rcases List.mem_cons.mp ht' with rfl | ht'
    · exact le_refl _
    · have := tags_retagFields (c + 1) fs t ht'
      omega

theorem tags_retagList : ∀ (c : Nat) (es : JSList), ∀ t ∈ tagsOfList (retagList c es).1, c ≤ t
  | _, .nil => by intro t ht; simp [retagList, tagsOfList] at ht
  | c, .cons v rest => by
    intro t ht
    have ht' : t ∈ tagsOfList (JSList.cons (retagVal c v).1
        (retagList (retagVal c v).2 rest).1) := ht
    rw [tagsOfList] at ht'
    rcases List.mem_append.mp ht' with ht' | ht'
    · exact tags_retagVal c v t ht'
    · have h1 := retagVal_le c v
      have h2 := tags_retagList (retagVal c v).2 rest t ht'
      omega

theorem tags_retagFields : ∀ (c : Nat) (fs : JSFields),
    ∀ t ∈ tagsOfFields (retagFields c fs).1, c ≤ t
  | _, .nil => by intro t ht; simp [retagFields, tagsOfFields] at ht
  | c, .cons k v rest => by
    intro t ht
    have ht' : t ∈ tagsOfFields (JSFields.cons k (retagVal c v).1
        (retagFields (retagVal c v).2 rest).1) := ht
    rw [tagsOfFields] at ht'
    rcases List.mem_append.mp ht' with ht' | ht'
    · exact tags_retagVal c v t ht'
    · have h1 := retagVal_le c v
      have h2 := tags_retagFields (retagVal c v).2 rest t ht'
      omega

end

theorem tags_jsFieldsGet : ∀ (key : String) (fs : JSFields) (v : JSVal),
    jsFieldsGet key fs = some v → ∀ t ∈ tagsOf v, t ∈ tagsOfFields fs
  | key, .nil, v => by intro h; exact Option.noConfusion h
  | key, .cons k w rest, v => by
    intro h t ht
    rw [jsFieldsGet] at h
    rw [tagsOfFields]
    by_cases hk : k = key
    · rw [if_pos hk] at h
      injection h with h
      subst h
      exact List.mem_append.mpr (Or.inl ht)
    · rw [if_neg hk] at h
      exact List.mem_append.mpr (Or.inr (tags_jsFieldsGet key rest v h t ht))

theorem tags_jsListGet : ∀ (i : Nat) (es : JSList) (v : JSVal),
    jsListGet i es = some v → ∀ t ∈ tagsOf v, t ∈ tagsOfList es
  | 0, .nil, v => by
    intro h
    have h' : (none : Option JSVal) = some v := h
    exact Option.noConfusion h'
  | _ + 1, .nil, v => by
    intro h
    have h' : (none : Option JSVal) = some v := h
    exact Option.noConfusion h'
  | 0, .cons w rest, v => by
    intro h t ht
    have h' : some w = some v := h
    injection h' with h'
    subst h'
    rw [tagsOfList]
    exact List.mem_append.mpr (Or.inl ht)
  | n + 1, .cons w rest, v => by
    intro h t ht
    have h' : jsListGet n rest = some v := h
    rw [tagsOfList]
    exact List.mem_append.mpr (Or.inr (tags_jsListGet n rest v h' t ht))

theorem tags_jsGetKey (cur : JSVal) (key : String) (v : JSVal)
    (h : jsGetKey cur key = some v) : ∀ t ∈ tagsOf v, t ∈ tagsOf cur := by
  intro t ht
  cases cur with
  | obj tg fs =>
    have h' : jsFieldsGet key fs = some v := h
    rw [tagsOf]
    exact List.mem_cons_of_mem _ (tags_jsFieldsGet key fs v h' t ht)
  | arr tg es =>
    have h' : (match canonicalIndex key with
        | some i => jsListGet i es
        | none => none) = some v := h
    rw [tagsOf]
    cases hci : canonicalIndex key with
    | some i =>
      rw [hci] at h'
      exact List.mem_cons_of_mem _ (tags_jsListGet i es v h' t ht)
    | none =>
      rw [hci] at h'
      exact Option.noConfusion h'
  | null => exact Option.noConfusion h
  | boolean b => exact Option.noConfusion h
  | num n => exact Option.noConfusion h
  | str s => exact Option.noConfusion h

theorem tags_setFieldKV : ∀ (key : String) (w : JSVal) (fs : JSFields),
    ∀ t ∈ tagsOfFields (setFieldKV key w fs), t ∈ tagsOfFields fs ∨ t ∈ tagsOf w
  | key, w, .nil => by
    intro t ht
    have ht' : t ∈ tagsOf w ++ tagsOfFields JSFields.nil := ht
    rcases List.mem_append.mp ht' with h | h
    · exact Or.inr h
    · have h' : t ∈ ([] : List Nat) := h
      exact absurd h' (List.not_mem_nil t)
  | key, w, .cons k v rest => by
    intro t ht
    by_cases hk : k = key
    · have ht' : t ∈ tagsOf w ++ tagsOfFields rest := by
        rw [setFieldKV, if_pos hk] at ht
        exact ht
      rcases List.mem_append.mp ht' with h | h
      · exact Or.inr h
      · exact Or.inl (show t ∈ tagsOf v ++ tagsOfFields rest from
          List.mem_append.mpr (Or.inr h))
    · have ht' : t ∈ tagsOf v ++ tagsOfFields (setFieldKV key w rest) := by
        rw [setFieldKV, if_neg hk] at ht
        exact ht
      rcases List.mem_append.mp ht' with h | h
      · exact Or.inl (show t ∈ tagsOf v ++ tagsOfFields rest from
          List.mem_append.mpr (Or.inl h))
      · rcases tags_setFieldKV key w rest t h with h' | h'
        · exact Or.inl (show t ∈ tagsOf v ++ tagsOfFields rest from
            List.mem_append.mpr (Or.inr h'))
        · exact Or.inr h'

theorem tags_delFieldK : ∀ (key : String) (fs : JSFields),
    ∀ t ∈ tagsOfFields (delFieldK key fs), t ∈ tagsOfFields fs
  | key, .nil => by intro t ht; exact ht
  | key, .cons k v rest => by
    intro t ht
    by_cases hk : k = key
    · have ht' : t ∈ tagsOfFields rest := by
        rw [delFieldK, if_pos hk] at ht
        exact ht
      exact show t ∈ tagsOf v ++ tagsOfFields rest from
        List.mem_append.mpr (Or.inr ht')
    · have ht' : t ∈ tagsOf v ++ tagsOfFields (delFieldK key rest) := by
        rw [delFieldK, if_neg hk] at ht
        exact ht
      rcases List.mem_append.mp ht' with h | h
      · exact show t ∈ tagsOf v ++ tagsOfFields rest from
          List.mem_append.mpr (Or.inl h)
      · exact show t ∈ tagsOf v ++ tagsOfFields rest from
          List.mem_append.mpr (Or.inr (tags_delFieldK key rest t h))

theorem tags_jsListSet : ∀ (i : Nat) (w : JSVal) (es : JSList),
    ∀ t ∈ tagsOfList (jsListSet i w es), t ∈ tagsOfList es ∨ t ∈ tagsOf w
  | 0, w, .nil => by
    intro t ht
    have ht' : t ∈ tagsOfList JSList.nil := ht
    exact Or.inl ht'
  | _ + 1, w, .nil => by
    intro t ht
    have ht' : t ∈ tagsOfList JSList.nil := ht
    exact Or.inl ht'
  | 0, w, .cons v rest => by
    intro t ht
    have ht' : t ∈ tagsOfList (JSList.cons w rest) := ht
    rw [tagsOfList] at ht'
    rcases List.mem_append.mp ht' with ht' | ht'
    · exact Or.inr ht'
    · exact Or.inl (by rw [tagsOfList]; exact List.mem_append.mpr (Or.inr ht'))
  | n + 1, w, .cons v rest => by
    intro t ht
    have ht' : t ∈ tagsOfList (JSList.cons v (jsListSet n w rest)) := ht
    rw [tagsOfList] at ht'
    rcases List.mem_append.mp ht' with ht' | ht'
    · exact Or.inl (by rw [tagsOfList]; exact List.mem_append.mpr (Or.inl ht'))
    · rcases tags_jsListSet n w rest t ht' with h | h
      · exact Or.inl (by rw [tagsOfList]; exact List.mem_append.mpr (Or.inr h))
      · exact Or.inr h

theorem tags_jsSetKey (cur : JSVal) (key : String) (w : JSVal) :
    ∀ t ∈ tagsOf (jsSetKey cur key w), t ∈ tagsOf cur ∨ t ∈ tagsOf w := by
  intro t ht
  cases cur with
  | obj tg fs =>
    have ht' : t ∈ tg :: tagsOfFields (setFieldKV key w fs) := ht
    rcases List.mem_cons.mp ht' with rfl | ht'
    · exact Or.inl (List.mem_cons_self _ _)
    · rcases tags_setFieldKV key w fs t ht' with h | h
      · exact Or.inl (List.mem_cons_of_mem _ h)
      · exact Or.inr h
  | arr tg es =>
    cases hci : canonicalIndex key with
    | some i =>
      have ht' : t ∈ tagsOf (JSVal.arr tg (jsListSet i w es)) := by
        rw [jsSetKey, hci] at ht
        exact ht
      have ht'' : t ∈ tg :: tagsOfList (jsListSet i w es) := ht'
      rcases List.mem_cons.mp ht'' with rfl | ht''
      · exact Or.inl (List.mem_cons_self _ _)
      · rcases tags_jsListSet i w es t ht'' with h | h
        · exact Or.inl (List.mem_cons_of_mem _ h)
        · exact Or.inr h
    | none =>
      have ht' : t ∈ tagsOf (JSVal.arr tg es) := by
        rw [jsSetKey, hci] at ht
        exact ht
      exact Or.inl ht'
  | null => exact Or.inl ht
  | boolean b => exact Or.inl ht
  | num n => exact Or.inl ht
  | str s => exact Or.inl ht

theorem tags_jsDelKey (cur : JSVal) (key : String) :
    ∀ t ∈ tagsOf (jsDelKey cur key), t ∈ tagsOf cur := by
  intro t ht
  cases cur with
  | obj tg fs =>
    have ht' : t ∈ tg :: tagsOfFields (delFieldK key fs) := ht
    rcases List.mem_cons.mp ht' with rfl | ht'
    · exact List.mem_cons_self _ _
    · exact List.mem_cons_of_mem _ (tags_delFieldK key fs t ht')
  | arr tg es =>
    cases hci : canonicalIndex key with
    | some i =>
      have ht' : t ∈ tg :: tagsOfList (jsListSet i JSVal.null es) := by
        rw [jsDelKey, hci] at ht
        exact ht
      rcases List.mem_cons.mp ht' with rfl | ht'
      · exact List.mem_cons_self _ _
      · rcases tags_jsListSet i JSVal.null es t ht' with h | h
        · exact List.mem_cons_of_mem _ h
        · have h' : t ∈ ([] : List Nat) := h
          exact absurd h' (List.not_mem_nil t)
    | none =>
      have ht' : t ∈ tagsOf (JSVal.arr tg es) := by
        rw [jsDelKey, hci] at ht
        exact ht
      exact ht'
  | null => exact ht
  | boolean b => exact ht
  | num n => exact ht
  | str s => exact ht

theorem tags_delKeysChain : ∀ (ks : List String) (cur : JSVal),
    ∀ t ∈ tagsOf (delKeysChain cur ks), t ∈ tagsOf cur
  | [], cur => by intro t ht; exact ht
  | [last], cur => by
    intro t ht
    exact tags_jsDelKey cur last t ht
  | k :: k' :: rest, cur => by
    intro t ht
    cases hgk : jsGetKey cur k with
    | some child =>
      have ht' : t ∈ tagsOf (jsSetKey cur k (delKeysChain child (k' :: rest))) := by
        rw [delKeysChain, hgk] at ht
        exact ht
      rcases tags_jsSetKey cur k (delKeysChain child (k' :: rest)) t ht' with h | h
      · exact h
      · exact tags_jsGetKey cur k child hgk t (tags_delKeysChain (k' :: rest) child t h)
    | none =>
      have ht' : t ∈ tagsOf cur := by
        rw [delKeysChain, hgk] at ht
        exact ht
      exact ht'

theorem tags_jsGetKeysChain : ∀ (ks : List String) (cur v : JSVal),
    jsGetKeysChain cur ks = some v → ∀ t ∈ tagsOf v, t ∈ tagsOf cur
  | [], cur, v => by
    intro h t ht
    have h' : some cur = some v := h
    injection h' with h'
    subst h'
    exact ht
  | k :: rest, cur, v => by
    intro h t ht
    cases hgk : jsGetKey cur k with
    | some next =>
      have h' : jsGetKeysChain next rest = some v := by
        rw [jsGetKeysChain, hgk] at h
        exact h
      exact tags_jsGetKey cur k next hgk t (tags_jsGetKeysChain rest next v h' t ht)
    | none =>
      have h' : (none : Option JSVal) = some v := by
        rw [jsGetKeysChain, hgk] at h
        exact h
      exact Option.noConfusion h'

theorem tags_getByPath (resp : JSVal) (p : String) (v : JSVal)
    (h : getByPath resp p = some v) : ∀ t ∈ tagsOf v, t ∈ tagsOf resp := by
  intro t ht
  by_cases hr : isRootPath p = true
  · have h' : some resp = some v := by
      rw [getByPath, if_pos hr] at h
      exact h
    injection h' with h'
    subst h'
    exact ht
  · have h' : jsGetKeysChain resp (splitPath p) = some v := by
      rw [getByPath, if_neg hr] at h
      exact h
    exact tags_jsGetKeysChain (splitPath p) resp v h' t ht

theorem mem_mapSet : ∀ (acc : List (String × JSVal)) (p : String) (v : JSVal)
    (q : String) (w : JSVal), (q, w) ∈ mapSet p v acc →
    (q, w) ∈ acc ∨ (q = p ∧ w = v)
  | [], p, v, q, w => by
    intro h
    have h' : (q, w) ∈ [(p, v)] := h
    rcases List.mem_singleton.mp h' with h'
    exact Or.inr ⟨congrArg Prod.fst h', congrArg Prod.snd h'⟩
  | (k, x) :: rest, p, v, q, w => by
    intro h
    by_cases hk : k = p
    · have h' : (q, w) ∈ (p, v) :: rest := by
        rw [mapSet, if_pos hk] at h
        exact h
      rcases List.mem_cons.mp h' with h' | h'
      · exact Or.inr ⟨congrArg Prod.fst h', congrArg Prod.snd h'⟩
      · exact Or.inl (List.mem_cons_of_mem _ h')
    · have h' : (q, w) ∈ (k, x) :: mapSet p v rest := by
        rw [mapSet, if_neg hk] at h
        exact h
      rcases List.mem_cons.mp h' with h' | h'
      · exact Or.inl (by rw [h']; exact List.mem_cons_self _ _)
      · rcases mem_mapSet rest p v q w h' with h'' | h''
        · exact Or.inl (List.mem_cons_of_mem _ h'')
        · exact Or.inr h''

theorem exGo_tags : ∀ (paths : List String) (resp : JSVal) (c : Nat)
    (acc : List (String × JSVal)) (modified : JSVal)
    (m : List (String × JSVal)) (r : JSVal) (c' : Nat),
    (∀ p ∈ paths, isRootPath p = false) →
    extractGo resp [] c acc modified paths = some (m, r, c') →
    (∀ t ∈ tagsOf r, t ∈ tagsOf modified) ∧
    (∀ q v, (q, v) ∈ m → ((q, v) ∈ acc ∨ ∃ p, getByPath resp p = some v))
  | [], resp, c, acc, modified, m, r, c' => by
    intro _ hex
    have hex' : some (acc, modified, c) = some (m, r, c') := hex
    injection hex' with hex'
    rw [Prod.mk.injEq] at hex'
    obtain ⟨h1, h2⟩ := hex'
    rw [Prod.mk.injEq] at h2
    obtain ⟨h2, _⟩ := h2
    subst h1
    subst h2
    exact ⟨fun t ht => ht, fun q v hqv => Or.inl hqv⟩
  | p :: rest, resp, c, acc, modified, m, r, c' => by
    intro hroot hex
    have hp : isRootPath p = false := hroot p (List.mem_cons_self p rest)
    have hrest : ∀ q ∈ rest, isRootPath q = false :=
      fun q hq => hroot q (List.mem_cons_of_mem p hq)
    cases hg : getByPath resp p with
    | none =>
      have hex' : extractGo resp [] c acc modified rest = some (m, r, c') := by
        rw [extractGo] at hex
        simp only [hg] at hex
        exact hex
      exact exGo_tags rest resp c acc modified m r c' hrest hex'
    | some v =>
      have hex1 : extractGo resp [] c (mapSet p v acc)
          (delKeysChain modified (splitPath p)) rest = some (m, r, c') := by
        rw [extractGo] at hex
        simp only [hg, hp, deleteByPath, Bool.false_eq_true, if_false] at hex
        exact hex
      have IH := exGo_tags rest resp c (mapSet p v acc)
        (delKeysChain modified (splitPath p)) m r c' hrest hex1
      refine ⟨?_, ?_⟩
      · intro t ht
        exact tags_delKeysChain (splitPath p) modified t (IH.1 t ht)
      · intro q w hqw
        rcases IH.2 q w hqw with h | h
        · rcases mem_mapSet acc p v q w h with h' | h'
          · exact Or.inl h'
          · exact Or.inr ⟨p, by rw [h'.2]; exact hg⟩
        · exact Or.inr h

/-- C9 (counterexample): with no extraction paths, `extractDataByPaths`
returns the original response object itself as the residual — the same
mutable node (tag 0), not a deep clone — so mutating the residual
mutates the original input, refuting "in every case the residual is a
deep clone such that mutating the residual alters neither the original
input nor the extracted values". -/
theorem C9_counterexample :
    extractDataByPaths 10 cxRow [] ["x"] = some ([], cxRow, 10) ∧
    sharesMutableNode cxRow cxRow = true := by
  exact ⟨rfl, by decide⟩

/-- C9 (amended): with an empty extraction-path list the residual is the
original response itself (and the inputs are returned untouched); when
the extraction paths are non-empty, none of them is the root, and no
preserve paths are given, the residual is a fresh deep clone sharing no
mutable node with the original response or with any extracted value, so
mutating it alters neither. -/
theorem C9_amended :
    (∀ (c : Nat) (resp : JSVal) (pres : List String),
      extractDataByPaths c resp [] pres = some ([], resp, c)) ∧
    ∀ (c : Nat) (resp : JSVal) (exPaths : List String)
      (m : List (String × JSVal)) (r : JSVal) (c' : Nat),
      exPaths ≠ [] → (∀ p ∈ exPaths, isRootPath p = false) →
      (∀ t ∈ tagsOf resp, t < c) →
      extractDataByPaths c resp exPaths [] = some (m, r, c') →
      sharesMutableNode r resp = false ∧
      ∀ q v, (q, v) ∈ m → sharesMutableNode r v = false := by
  constructor
  · intro c resp pres
    rfl
  · intro c resp exPaths m r c' hne hroot hlt hex
    have hempty : exPaths.isEmpty = false := by
      cases exPaths with
      | nil => exact absurd rfl hne
      | cons p ps => rfl
    have hex' : extractGo resp [] (retagVal c resp).2 [] (retagVal c resp).1 exPaths =
        some (m, r, c') := by
      rw [extractDataByPaths] at hex
      simp only [hempty, Bool.false_eq_true, if_false] at hex
      exact hex
    have hgo := exGo_tags exPaths resp (retagVal c resp).2 [] (retagVal c resp).1
      m r c' hroot hex'
    have hrge : ∀ t ∈ tagsOf r, c ≤ t :=
      fun t ht => tags_retagVal c resp t (hgo.1 t ht)
    refine ⟨?_, ?_⟩
    · rw [sharesMutableNode]
      rw [List.any_eq_false]
      intro t ht
      simp only [decide_eq_true_eq]
      intro hmem
      have h1 := hrge t ht
      have h2 := hlt t hmem
      omega
    · intro q v hqv
      rcases hgo.2 q v hqv with h | h
      · exact absurd h (List.not_mem_nil _)
      · obtain ⟨p, hget⟩ := h
        rw [sharesMutableNode]
        rw [List.any_eq_false]
        intro t ht
        simp only [decide_eq_true_eq]
        intro hmem
        have h1 := hrge t ht
        have h2 := hlt t (tags_getByPath resp p v hget t hmem)
        omega

/-- C9 (witness for the amended theorem): extracting path `a` from
`{"a": [1], "b": 2}` (tags 0 and 1, counter 5) yields a residual that
shares no mutable node with the original or with the extracted array. -/
theorem C9_amended_witness :
    sharesMutableNode (JSVal.obj 5 (.cons "b" (.num 2) .nil)) cx9resp = false ∧
    sharesMutableNode (JSVal.obj 5 (.cons "b" (.num 2) .nil))
      (JSVal.arr 1 (.cons (.num 1) .nil)) = false := by
  have h := C9_amended.2 5 cx9resp ["a"]
    [("a", JSVal.arr 1 (.cons (.num 1) .nil))]
    (JSVal.obj 5 (.cons "b" (.num 2) .nil)) 7
    (by simp) (by decide) (by decide) (by decide)
  exact ⟨h.1, h.2 "a" (JSVal.arr 1 (.cons (.num 1) .nil)) (by decide)⟩

theorem exGo_root_stops : ∀ (before : List String) (resp : JSVal) (pres : List String)
    (c : Nat) (acc : List (String × JSVal)) (modified : JSVal) (r : String)
    (after : List String),
    isRootPath r = true → (∀ p ∈ before, isRootPath p = false) →
    extractGo resp pres c acc modified (before ++ r :: after) =
      extractGo resp pres c acc modified (before ++ [r])
  | [], resp, pres, c, acc, modified, r, after => by
    intro hr _
    have hg : getByPath resp r = some resp := by rw [getByPath, if_pos hr]
    show extractGo resp pres c acc modified (r :: after) =
      extractGo resp pres c acc modified [r]
    rw [extractGo]
    conv_rhs => rw [extractGo]
    simp only [hg, hr, if_true]
  | p :: before', resp, pres, c, acc, modified, r, after => by
    intro hr hb
    have hp : isRootPath p = false := hb p (List.mem_cons_self p before')
    have hb' : ∀ q ∈ before', isRootPath q = false :=
      fun q hq => hb q (List.mem_cons_of_mem p hq)
    show extractGo resp pres c acc modified (p :: (before' ++ r :: after)) =
      extractGo resp pres c acc modified (p :: (before' ++ [r]))
    rw [extractGo]
    conv_rhs => rw [extractGo]
    cases hg : getByPath resp p with
    | none =>
      simp only [hg]
      exact exGo_root_stops before' resp pres c acc modified r after hr hb'
    | some v =>
      simp only [hg, hp, Bool.false_eq_true, if_false, deleteByPath]
      exact exGo_root_stops before' resp pres c (mapSet p v acc)
        (delKeysChain modified (splitPath p)) r after hr hb'

theorem exGo_keys : ∀ (paths : List String) (resp : JSVal) (pres : List String)
    (c : Nat) (acc : List (String × JSVal)) (modified : JSVal)
    (m : List (String × JSVal)) (r : JSVal) (c' : Nat),
    extractGo resp pres c acc modified paths = some (m, r, c') →
    ∀ q, q ∈ m.map Prod.fst → q ∈ acc.map Prod.fst ∨ q ∈ paths
  | [], resp, pres, c, acc, modified, m, r, c' => by
    intro hex q hq
    by_cases hpe : pres.isEmpty = true
    · have hex' : some (acc, modified, c) = some (m, r, c') := by
        rw [extractGo, if_pos hpe] at hex
        exact hex
      injection hex' with hex'
      have hm : acc = m := congrArg Prod.fst hex'
      subst hm
      exact Or.inl hq
    · have hex' : (match buildPreservedObject c resp pres with
          | none => none
          | some qq => some (acc, qq.1, qq.2)) = some (m, r, c') := by
        rw [extractGo, if_neg hpe] at hex
        exact hex
      cases hbp : buildPreservedObject c resp pres with
      | none => rw [hbp] at hex'; exact Option.noConfusion hex'
      | some qq =>
        rw [hbp] at hex'
        injection hex' with hex'
        have hm : acc = m := congrArg Prod.fst hex'
        subst hm
        exact Or.inl hq
  | p :: rest, resp, pres, c, acc, modified, m, r, c' => by
    intro hex q hq
    cases hg : getByPath resp p with
    | none =>
      have hex' : extractGo resp pres c acc modified rest = some (m, r, c') := by
        rw [extractGo] at hex
        simp only [hg] at hex
        exact hex
      rcases exGo_keys rest resp pres c acc modified m r c' hex' q hq with h | h
      · exact Or.inl h
      · exact Or.inr (List.mem_cons_of_mem p h)
    | some v =>
      have hkeys : ∀ q', q' ∈ (mapSet p v acc).map Prod.fst →
          q' ∈ acc.map Prod.fst ∨ q' = p := by
        intro q' hq'
        rcases List.mem_map.mp hq' with ⟨⟨qk, qv⟩, hmem, hfst⟩
        rcases mem_mapSet acc p v qk qv hmem with h | h
        · exact Or.inl (by rw [← hfst]; exact List.mem_map.mpr ⟨(qk, qv), h, rfl⟩)
        · exact Or.inr (by rw [← hfst]; exact h.1)
      by_cases hp : isRootPath p = true
      · have hex' : (match buildPreservedObject c resp pres with
            | none => none
            | some qq => some (mapSet p v acc, qq.1, qq.2)) = some (m, r, c') := by
          rw [extractGo] at hex
          simp only [hg, hp, if_true] at hex
          exact hex
        cases hbp : buildPreservedObject c resp pres with
        | none => rw [hbp] at hex'; exact Option.noConfusion hex'
        | some qq =>
          rw [hbp] at hex'
          injection hex' with hex'
          have hm : mapSet p v acc = m := congrArg Prod.fst hex'
          subst hm
          rcases hkeys q hq with h | h
          · exact Or.inl h
          · exact Or.inr (by rw [h]; exact List.mem_cons_self p rest)
      · have hp' : isRootPath p = false := by
          cases hcase : isRootPath p
          · rfl
          · exact absurd hcase hp
        have hex' : extractGo resp pres c (mapSet p v acc)
            (delKeysChain modified (splitPath p)) rest = some (m, r, c') := by
          rw [extractGo] at hex
          simp only [hg, hp', Bool.false_eq_true, if_false, deleteByPath] at hex
          exact hex
        rcases exGo_keys rest resp pres c (mapSet p v acc)
            (delKeysChain modified (splitPath p)) m r c' hex' q hq with h | h
        · rcases hkeys q h with h' | h'
          · exact Or.inl h'
          · exact Or.inr (by rw [h']; exact List.mem_cons_self p rest)
        · exact Or.inr (List.mem_cons_of_mem p h)

theorem exGo_root_result : ∀ (before : List String) (resp : JSVal) (pres : List String)
    (c : Nat) (acc : List (String × JSVal)) (modified : JSVal) (r : String)
    (after : List String) (m : List (String × JSVal)) (res : JSVal) (c' : Nat),
    isRootPath r = true → (∀ p ∈ before, isRootPath p = false) →
    extractGo resp pres c acc modified (before ++ r :: after) = some (m, res, c') →
    buildPreservedObject c resp pres = some (res, c')
  | [], resp, pres, c, acc, modified, r, after, m, res, c' => by
    intro hr _ hex
    have hg : getByPath resp r = some resp := by rw [getByPath, if_pos hr]
    have hex' : (match buildPreservedObject c resp pres with
        | none => none
        | some qq => some (mapSet r resp acc, qq.1, qq.2)) = some (m, res, c') := by
      rw [List.nil_append] at hex
      rw [extractGo] at hex
      simp only [hg, hr, if_true] at hex
      exact hex
    cases hbp : buildPreservedObject c resp pres with
    | none => rw [hbp] at hex'; exact Option.noConfusion hex'
    | some qq =>
      rw [hbp] at hex'
      injection hex' with hex'
      have h2 : (qq.1, qq.2) = (res, c') := congrArg Prod.snd hex'
      have hq1 : qq.1 = res := congrArg Prod.fst h2
      have hq2 : qq.2 = c' := congrArg Prod.snd h2
      rw [← hq1, ← hq2]
  | p :: before', resp, pres, c, acc, modified, r, after, m, res, c' => by
    intro hr hb hex
    have hp : isRootPath p = false := hb p (List.mem_cons_self p before')
    have hb' : ∀ q ∈ before', isRootPath q = false :=
      fun q hq => hb q (List.mem_cons_of_mem p hq)
    rw [List.cons_append, extractGo] at hex
    cases hg : getByPath resp p with
    | none =>
      simp only [hg] at hex
      exact exGo_root_result before' resp pres c acc modified r after m res c' hr hb' hex
    | some v =>
      simp only [hg, hp, Bool.false_eq_true, if_false, deleteByPath] at hex
      exact exGo_root_result before' resp pres c (mapSet p v acc)
        (delKeysChain modified (splitPath p)) r after m res c' hr hb' hex

/-- C10: when an extraction path is the root (`""` or `"."`, which always
addresses the defined whole response) and every earlier extraction path
is non-root, `extractDataByPaths` returns as soon as the root path is
processed: the run is identical to the run with all later extraction
paths removed, every key of the extracted map comes from the earlier
paths or the root path itself (paths after the root are never added, so
the pipeline never vaults them), and the residual (with the final
counter) is exactly `buildPreservedObject` of the preserve paths over
the original response. -/
theorem C10_root_early_return (c : Nat) (resp : JSVal) (before after pres : List String)
    (r : String) (hr : isRootPath r = true)
    (hb : ∀ p ∈ before, isRootPath p = false) :
    extractDataByPaths c resp (before ++ r :: after) pres =
      extractDataByPaths c resp (before ++ [r]) pres ∧
    ∀ m res c', extractDataByPaths c resp (before ++ r :: after) pres = some (m, res, c') →
      (∀ q ∈ m.map Prod.fst, q ∈ before ++ [r]) ∧
      buildPreservedObject (retagVal c resp).2 resp pres = some (res, c') := by
  have hne1 : (before ++ r :: after).isEmpty = false := by
    cases before <;> rfl
  have hne2 : (before ++ [r]).isEmpty = false := by
    cases before <;> rfl
  have hunf1 : extractDataByPaths c resp (before ++ r :: after) pres =
      extractGo resp pres (retagVal c resp).2 [] (retagVal c resp).1
        (before ++ r :: after) := by
    rw [extractDataByPaths]
    simp only [hne1, Bool.false_eq_true, if_false]
  have hunf2 : extractDataByPaths c resp (before ++ [r]) pres =
      extractGo resp pres (retagVal c resp).2 [] (retagVal c resp).1 (before ++ [r]) := by
    rw [extractDataByPaths]
    simp only [hne2, Bool.false_eq_true, if_false]
  have heq : extractDataByPaths c resp (before ++ r :: after) pres =
      extractDataByPaths c resp (before ++ [r]) pres := by
    rw [hunf1, hunf2]
    exact exGo_root_stops before resp pres (retagVal c resp).2 []
      (retagVal c resp).1 r after hr hb
  refine ⟨heq, ?_⟩
  intro m res c' hex
  have hex1 : extractGo resp pres (retagVal c resp).2 [] (retagVal c resp).1
      (before ++ r :: after) = some (m, res, c') := by
    rw [← hunf1]
    exact hex
  have hex2 : extractGo resp pres (retagVal c resp).2 [] (retagVal c resp).1
      (before ++ [r]) = some (m, res, c') := by
    rw [← hunf2, ← heq]
    exact hex
  refine ⟨?_, ?_⟩
  · intro q hq
    rcases exGo_keys (before ++ [r]) resp pres (retagVal c resp).2 []
        (retagVal c resp).1 m res c' hex2 q hq with h | h
    · exact absurd h (by simp)
    · exact h
  · exact exGo_root_result before resp pres (retagVal c resp).2 []
      (retagVal c resp).1 r after m res c' hr hb hex1

/-- C10 (witness): extracting `["a", "", "zzz"]` with preserve path `b`
from `{"a": [1], "b": 2}` equals the run without the path after the
root, and the root stops the run. -/
theorem C10_root_early_return_witness :
    extractDataByPaths 5 cx9resp ["a", "", "zzz"] ["b"] =
      extractDataByPaths 5 cx9resp ["a", ""] ["b"] := by
  exact (C10_root_early_return 5 cx9resp ["a"] ["zzz"] ["b"] "" rfl (by decide)).1
